import Mathlib

/-!
Verification of the incremental content-addressed indexing engine of the
`ace-sidebar` extension (source of authority: `src/extension.ts`).

The development shallowly embeds the pure core of the engine:

* `calculateBlobName` — SHA-256 over UTF-8 path bytes then UTF-8 content
  bytes (the Node `crypto` primitive is embedded as a full FIPS 180-4
  SHA-256 over byte lists, with machine words as `Nat` reduced `% 2^32`);
* `splitFileContent` — the line-accurate content splitter;
* `matchPattern` / `shouldExclude` — the glob exclude filter
  (the JavaScript `RegExp` engine is external; the embedding covers the
  regex fragment actually generated by the translation `*`→`.*`, `?`→`.`
  for patterns built from literal characters and the metacharacter `.`);
* `retryRequest` — the exponential-backoff retry wrapper;
* `indexProject`, `indexFile`, `removeFileFromIndex` — the reconciliation
  state machine over the Index Store.

I/O boundaries are made explicit: the collected blob list, the loaded
store, and the per-batch server responses are inputs; the committed store
(if any) is an output (`none` = no write of the index document).
-/

set_option maxRecDepth 20000

namespace AceSidebar

/-! ## JavaScript collection semantics

`Set` keeps first-insertion order and ignores duplicate inserts; plain
objects keep first-insertion key order, with later writes updating the
value in place.  Both are embedded as lists. -/

/-- JS `Set.add`: append unless already present. -/
def setAdd (l : List String) (x : String) : List String :=
  if x ∈ l then l else l ++ [x]

/-- `new Set(xs)` then spread: first occurrences, in order. -/
def setOfList (xs : List String) : List String :=
  xs.foldl setAdd []

/-- First value bound to `k` in an association list (JS object read). -/
def alGet {α : Type} (m : List (String × α)) (k : String) : Option α :=
  (m.find? (fun e => e.1 = k)).map (fun e => e.2)

/-- JS `delete obj[k]`: drop the key, other keys keep their order. -/
def alRemove {α : Type} (m : List (String × α)) (k : String) : List (String × α) :=
  m.filter (fun e => e.1 ≠ k)

/-- JS `{...obj, [k]: v}`: update the value in place if the key exists,
else append the key. -/
def alSet {α : Type} (m : List (String × α)) (k : String) (v : α) : List (String × α) :=
  if m.any (fun e => e.1 = k) then
    m.map (fun e => if e.1 = k then (e.1, v) else e)
  else m ++ [(k, v)]

/-- `if (!obj[k]) obj[k] = []; obj[k].push(h)`. -/
def alPush (m : List (String × List String)) (k h : String) : List (String × List String) :=
  if m.any (fun e => e.1 = k) then
    m.map (fun e => if e.1 = k then (e.1, e.2 ++ [h]) else e)
  else m ++ [(k, [h])]

/-! ## SHA-256 (FIPS 180-4), words as `Nat` mod `2^32` -/

/-- Truncate to a 32-bit word. -/
def w32 (n : Nat) : Nat := n % 4294967296

/-- Rotate a 32-bit word right by `k`. -/
def rotr (k n : Nat) : Nat := w32 ((n >>> k) ||| (n <<< (32 - k)))

def bsig0 (x : Nat) : Nat := (rotr 2 x) ^^^ (rotr 13 x) ^^^ (rotr 22 x)
def bsig1 (x : Nat) : Nat := (rotr 6 x) ^^^ (rotr 11 x) ^^^ (rotr 25 x)
def ssig0 (x : Nat) : Nat := (rotr 7 x) ^^^ (rotr 18 x) ^^^ (x >>> 3)
def ssig1 (x : Nat) : Nat := (rotr 17 x) ^^^ (rotr 19 x) ^^^ (x >>> 10)

/-- `Ch(x,y,z)`; `¬x` within 32 bits is `x ^^^ 0xFFFFFFFF`. -/
def chf (x y z : Nat) : Nat := (x &&& y) ^^^ ((x ^^^ 4294967295) &&& z)

def majf (x y z : Nat) : Nat := (x &&& y) ^^^ (x &&& z) ^^^ (y &&& z)

/-- The eight working variables of the compression function. -/
structure Hash8 where
  a : Nat
  b : Nat
  c : Nat
  d : Nat
  e : Nat
  f : Nat
  g : Nat
  h : Nat
deriving DecidableEq, Repr

/-- SHA-256 round constants. -/
def kConsts : List Nat :=
  [1116352408, 1899447441, 3049323471, 3921009573, 961987163,
   1508970993, 2453635748, 2870763221, 3624381080, 310598401,
   607225278, 1426881987, 1925078388, 2162078206, 2614888103,
   3248222580, 3835390401, 4022224774, 264347078, 604807628,
   770255983, 1249150122, 1555081692, 1996064986, 2554220882,
   2821834349, 2952996808, 3210313671, 3336571891, 3584528711,
   113926993, 338241895, 666307205, 773529912, 1294757372,
   1396182291, 1695183700, 1986661051, 2177026350, 2456956037,
   2730485921, 2820302411, 3259730800, 3345764771, 3516065817,
   3600352804, 4094571909, 275423344, 430227734, 506948616,
   659060556, 883997877, 958139571, 1322822218, 1537002063,
   1747873779, 1955562222, 2024104815, 2227730452, 2361852424,
   2428436474, 2756734187, 3204031479, 3329325298]

/-- SHA-256 initial hash value. -/
def hInit : Hash8 :=
  ⟨1779033703, 3144134277, 1013904242, 2773480762,
   1359893119, 2600822924, 528734635, 1541459225⟩

/-- Extend 16 schedule words to 64. -/
def wsched (ws : List Nat) : List Nat :=
  (List.range 48).foldl
    (fun ws _ =>
      let n := ws.length
      ws ++ [w32 (ssig1 (ws.getD (n - 2) 0) + ws.getD (n - 7) 0 +
                  ssig0 (ws.getD (n - 15) 0) + ws.getD (n - 16) 0)])
    ws

/-- One compression round. -/
def sround (st : Hash8) (kw : Nat × Nat) : Hash8 :=
  let t1 := w32 (st.h + bsig1 st.e + chf st.e st.f st.g + kw.1 + kw.2)
  let t2 := w32 (bsig0 st.a + majf st.a st.b st.c)
  ⟨w32 (t1 + t2), st.a, st.b, st.c, w32 (st.d + t1), st.e, st.f, st.g⟩

/-- Compress one 16-word block into the running state. -/
def compress (st : Hash8) (block : List Nat) : Hash8 :=
  let f := (kConsts.zip (wsched block)).foldl sround st
  ⟨w32 (st.a + f.a), w32 (st.b + f.b), w32 (st.c + f.c), w32 (st.d + f.d),
   w32 (st.e + f.e), w32 (st.f + f.f), w32 (st.g + f.g), w32 (st.h + f.h)⟩

/-- Big-endian 8-byte encoding of the bit length. -/
def lenBytes (n : Nat) : List Nat :=
  [n >>> 56 % 256, n >>> 48 % 256, n >>> 40 % 256, n >>> 32 % 256,
   n >>> 24 % 256, n >>> 16 % 256, n >>> 8 % 256, n % 256]

/-- Append the `0x80` marker, zero padding and the bit length. -/
def padMsg (msg : List Nat) : List Nat :=
  let len := msg.length
  let zeros := (119 - len % 64) % 64
  msg ++ [128] ++ List.replicate zeros 0 ++ lenBytes (len * 8)

/-- Group bytes into big-endian 32-bit words. -/
def toWords : List Nat → List Nat
  | b0 :: b1 :: b2 :: b3 :: rest =>
      (b0 * 16777216 + b1 * 65536 + b2 * 256 + b3) :: toWords rest
  | _ => []

/-- Split a padded message into 64-byte blocks (`fuel` bounds the number of
blocks; structural recursion so that the kernel can evaluate). -/
def toBlocksFuel : Nat → List Nat → List (List Nat)
  | 0, _ => []
  | _, [] => []
  | fuel + 1, x :: xs => ((x :: xs).take 64) :: toBlocksFuel fuel ((x :: xs).drop 64)

/-- Split a padded message into 64-byte blocks. -/
def toBlocks (l : List Nat) : List (List Nat) :=
  toBlocksFuel l.length l

/-- Big-endian bytes of a 32-bit word. -/
def wordBytes (w : Nat) : List Nat :=
  [w >>> 24 % 256, w >>> 16 % 256, w >>> 8 % 256, w % 256]

/-- SHA-256 digest bytes of a byte list: the final eight words,
big-endian. -/
def sha256bytes (msg : List Nat) : List Nat :=
  let fin := (toBlocks (padMsg msg)).foldl (fun st blk => compress st (toWords blk)) hInit
  [fin.a, fin.b, fin.c, fin.d, fin.e, fin.f, fin.g, fin.h].flatMap wordBytes

/-- Lowercase hex digit. -/
def hexDigit (n : Nat) : Char :=
  "0123456789abcdef".data.getD n '0'

/-- Lowercase hex string of a byte list (Node `digest('hex')`). -/
def bytesToHex (bs : List Nat) : String :=
  String.mk (bs.flatMap (fun b => [hexDigit (b / 16), hexDigit (b % 16)]))

/-- Lowercase hex SHA-256 of a byte list. -/
def sha256hex (msg : List Nat) : String :=
  bytesToHex (sha256bytes msg)

/-- UTF-8 encoding of a scalar value. -/
def utf8EncodeChar (n : Nat) : List Nat :=
  if n < 128 then [n]
  else if n < 2048 then [192 + n / 64, 128 + n % 64]
  else if n < 65536 then [224 + n / 4096, 128 + (n / 64) % 64, 128 + n % 64]
  else [240 + n / 262144, 128 + (n / 4096) % 64, 128 + (n / 64) % 64, 128 + n % 64]

/-- UTF-8 bytes of a string (Node `hash.update(s, 'utf-8')`). -/
def utf8Bytes (s : String) : List Nat :=
  s.data.flatMap (fun c => utf8EncodeChar c.toNat)

/-- `calculateBlobName` (`extension.ts` 507–512): SHA-256 over the UTF-8
path bytes then the UTF-8 content bytes, two updates, no separator. -/
def calculateBlobName (filePath content : String) : String :=
  sha256hex (utf8Bytes filePath ++ utf8Bytes content)

/-- Known-answer test: SHA-256 of `"abc"`. -/
example :
    sha256hex (utf8Bytes "abc") =
      "ba7816bf8f01cfea414140de5dae2223b00361a396177a9cb410ff61f20015ad" := by
  decide

/-! ## Content Splitter (`splitFileContent`, `extension.ts` 663–706) -/

/-- A blob: logical path, exact content slice, owning file. -/
structure Blob where
  path : String
  content : String
  sourcePath : String
deriving DecidableEq, Repr

/-- The line scanner of `splitFileContent`: cut after `\n`, after `\r\n`
(consuming both), or after a lone `\r`; a trailing fragment without a
terminator becomes a final line.  `acc` holds the pending line reversed. -/
def slAux : List Char → List Char → List (List Char)
  | acc, [] => if acc.isEmpty then [] else [acc.reverse]
  | acc, '\n' :: rest => (acc.reverse ++ ['\n']) :: slAux [] rest
  | acc, '\r' :: '\n' :: rest => (acc.reverse ++ ['\r', '\n']) :: slAux [] rest
  | acc, '\r' :: rest => (acc.reverse ++ ['\r']) :: slAux [] rest
  | acc, c :: rest => slAux (c :: acc) rest

/-- The terminator-preserving line list of a content string. -/
def splitLines (content : String) : List (List Char) :=
  slAux [] content.data

/-- `Math.ceil(a / b)` on naturals (`b ≥ 1`). -/
def ceilDiv (a b : Nat) : Nat := (a + b - 1) / b

/-- `splitFileContent`: one blob for a file of at most `maxLines` lines,
else `ceil(totalLines / maxLines)` chunk blobs with `#chunk{i}of{n}`
suffixes, each the join of a contiguous slice of lines. -/
def splitFileContent (maxLines : Nat) (filePath content : String) : List Blob :=
  let lines := splitLines content
  let totalLines := lines.length
  if totalLines ≤ maxLines then [⟨filePath, content, filePath⟩]
  else
    let numChunks := ceilDiv totalLines maxLines
    (List.range numChunks).map fun chunkIdx =>
      let chunkLines := (lines.drop (chunkIdx * maxLines)).take maxLines
      ⟨filePath ++ "#chunk" ++ toString (chunkIdx + 1) ++ "of" ++ toString numChunks,
       String.mk chunkLines.flatten, filePath⟩

/-! ## Index Store and the reconciliation engine

`IndexStore` is the persisted JSON document `{version, blob_names,
file_map}`; `file_map` is a JS object, embedded as an insertion-ordered
association list.  Structural equality of `IndexStore` models byte-for-byte
equality of the serialized document (`JSON.stringify` is deterministic and
injective on this shape). -/

structure IndexStore where
  version : Nat
  blob_names : List String
  file_map : List (String × List String)
deriving DecidableEq, Repr

/-- The empty store `loadIndexStore` returns when no document exists. -/
def emptyStore : IndexStore := ⟨1, [], []⟩

inductive IndexStatus where
  | success
  | partialSuccess
  | error
  | skipped
deriving DecidableEq, Repr

/-- The structured outcome `{status, message, stats?}`;
stats are `(total_blobs, existing_blobs, new_blobs)`. -/
structure IndexResult where
  status : IndexStatus
  message : String
  stats : Option (Nat × Nat × Nat)
deriving DecidableEq, Repr

/-- `collectBlobNames` (`extension.ts` 622–630): the set of all digests in
any `file_map` value, in first-appearance order. -/
def collectBlobNames (fileMap : List (String × List String)) : List String :=
  setOfList (fileMap.flatMap (fun e => e.2))

/-- The digest of each collected blob, in collection order. -/
def candidateHashes (blobs : List Blob) : List String :=
  blobs.map (fun b => calculateBlobName b.path b.content)

/-- The keys of `blobHashMap` (a JS `Map` keyed by digest): candidate
digests deduplicated, first occurrences first. -/
def allBlobHashes (blobs : List Blob) : List String :=
  setOfList (candidateHashes blobs)

/-- The candidate `fileMap`: each blob's digest appended to its source
file's list, files in first-appearance order. -/
def buildFileMap (blobs : List Blob) : List (String × List String) :=
  blobs.foldl (fun fm b => alPush fm b.sourcePath (calculateBlobName b.path b.content)) []

/-- Candidate digests already present in the loaded store. -/
def existingOf (store : IndexStore) (blobs : List Blob) : List String :=
  (allBlobHashes blobs).filter (fun h => store.blob_names.contains h)

/-- Candidate digests missing from the loaded store (to be uploaded). -/
def newOf (store : IndexStore) (blobs : List Blob) : List String :=
  (allBlobHashes blobs).filter (fun h => !store.blob_names.contains h)

/-- Batch verification (`extension.ts` 1083–1098): a non-empty response
whose digest set equals the expected digest set.  `none` models a request
that failed (threw) after retries. -/
def batchOk (expected : List String) : Option (List String) → Bool
  | none => false
  | some lst =>
      !lst.isEmpty &&
      (setOfList expected).length = (setOfList lst).length &&
      expected.all (fun h => lst.contains h)

/-- One iteration of the upload loop: on a verified response the returned
names are appended to `uploadedBlobNames`, otherwise the 1-indexed batch
number is recorded as failed. -/
def rbStep (newHashes : List String) (batchSize : Nat)
    (resp : Nat → Option (List String))
    (acc : List String × List Nat) (i : Nat) : List String × List Nat :=
  if batchOk ((newHashes.drop (i * batchSize)).take batchSize) (resp i) then
    (acc.1 ++ (resp i).getD [], acc.2)
  else
    (acc.1, acc.2 ++ [i + 1])

/-- The upload loop over consecutive batches of at most `batchSize` new
digests.  Returns the concatenated verified server responses
(`uploadedBlobNames`) and the 1-indexed failed batch numbers. -/
def runBatches (newHashes : List String) (batchSize : Nat)
    (resp : Nat → Option (List String)) : List String × List Nat :=
  (List.range (ceilDiv newHashes.length batchSize)).foldl
    (rbStep newHashes batchSize resp) ([], [])

/-- The digests available for commit: `existing ∪ uploaded` as a JS set. -/
def availableOf (store : IndexStore) (blobs : List Blob) (batchSize : Nat)
    (resp : Nat → Option (List String)) : List String :=
  setOfList (existingOf store blobs ++ (runBatches (newOf store blobs) batchSize resp).1)

/-- The committed `fileMap`: candidate lists filtered to available digests,
entries that become empty dropped. -/
def filteredMapOf (store : IndexStore) (blobs : List Blob) (batchSize : Nat)
    (resp : Nat → Option (List String)) : List (String × List String) :=
  ((buildFileMap blobs).map
      (fun e => (e.1, e.2.filter (fun h => (availableOf store blobs batchSize resp).contains h))))
    |>.filter (fun e => !e.2.isEmpty)

/-- The upload loop's outcome (`uploadedBlobNames`, `failedBatches`); the
loop only runs when there is something to upload. -/
def uploadResultOf (store : IndexStore) (blobs : List Blob) (batchSize : Nat)
    (resp : Nat → Option (List String)) : List String × List Nat :=
  if (newOf store blobs).isEmpty then ([], [])
  else runBatches (newOf store blobs) batchSize resp

/-- `indexProject` (`extension.ts` 1014–1168), its pure core: inputs are
the collected blobs, the loaded store and the per-batch server responses;
the second component is the committed store (`none` = nothing persisted). -/
def indexProject (batchSize : Nat) (blobs : List Blob) (store : IndexStore)
    (resp : Nat → Option (List String)) : IndexResult × Option IndexStore :=
  if blobs.isEmpty then
    (⟨.error, "No text files found in project", none⟩, none)
  else if !(newOf store blobs).isEmpty &&
          (uploadResultOf store blobs batchSize resp).1.isEmpty &&
          (existingOf store blobs).isEmpty then
    (⟨.error, "All batches failed on first indexing", none⟩, none)
  else
    (⟨if (uploadResultOf store blobs batchSize resp).2.isEmpty then .success
        else .partialSuccess,
      "Indexed " ++ toString (availableOf store blobs batchSize resp).length ++
        " blobs (existing: " ++ toString (existingOf store blobs).length ++
        ", new: " ++ toString (uploadResultOf store blobs batchSize resp).1.length ++ ")",
      some ((availableOf store blobs batchSize resp).length,
            (existingOf store blobs).length,
            (uploadResultOf store blobs batchSize resp).1.length)⟩,
     some ⟨1, availableOf store blobs batchSize resp, filteredMapOf store blobs batchSize resp⟩)

/-- `removeFileFromIndex` (`extension.ts` 632–658): drop the file's entry
(if present), recompute `blob_names` from the remaining map, commit. -/
def removeFileFromIndex (relativePath : String) (store : IndexStore)
    (reason : String) : IndexResult × Option IndexStore :=
  if !store.file_map.any (fun e => e.1 = relativePath) then
    (⟨.skipped, reason, none⟩, none)
  else
    let nextFileMap := alRemove store.file_map relativePath
    (⟨.success, reason, none⟩, some ⟨1, collectBlobNames nextFileMap, nextFileMap⟩)

/-- How the single-file entry point finds the file: outside the project
root, excluded by the ignore rules, extension not allowed, missing on
disk, or present with the given decoded content.  These checks live in
`indexFile` before its pure core and depend only on the file system and
configuration, which are inputs here. -/
inductive FileCheck where
  | outsideRoot
  | excluded
  | extNotAllowed
  | notFound
  | present (content : String)
deriving DecidableEq, Repr

/-- The ordered digest list of one file's blobs. -/
def fileNextHashes (maxLines : Nat) (relativePath content : String) : List String :=
  (splitFileContent maxLines relativePath content).map
    (fun b => calculateBlobName b.path b.content)

/-- The digests of this file's blobs that are missing from the store's
`blob_names` (`hashesToUpload`). -/
def hashesToUploadOf (maxLines : Nat) (relativePath content : String)
    (store : IndexStore) : List String :=
  (fileNextHashes maxLines relativePath content).filter
    (fun h => !store.blob_names.contains h)

/-- The failed batch numbers of a single-file upload; the loop only runs
when there is something to upload. -/
def fileFailedOf (maxLines batchSize : Nat) (relativePath content : String)
    (store : IndexStore) (resp : Nat → Option (List String)) : List Nat :=
  if (hashesToUploadOf maxLines relativePath content store).isEmpty then []
  else (runBatches (hashesToUploadOf maxLines relativePath content store) batchSize resp).2

/-- `indexFile` (`extension.ts` 886–1009), its pure core.  Removal paths
delegate to `removeFileFromIndex`; for a present file the new digest list
is compared to the stored one, missing digests are uploaded batchwise, and
any batch failure aborts the whole operation with no commit. -/
def indexFile (maxLines batchSize : Nat) (relativePath : String) (check : FileCheck)
    (store : IndexStore) (resp : Nat → Option (List String)) :
    IndexResult × Option IndexStore :=
  match check with
  | .outsideRoot => (⟨.skipped, "File is outside project root", none⟩, none)
  | .excluded => removeFileFromIndex relativePath store "File excluded from index"
  | .extNotAllowed => removeFileFromIndex relativePath store "File extension not indexed"
  | .notFound => removeFileFromIndex relativePath store "File not found"
  | .present content =>
    if fileNextHashes maxLines relativePath content =
        (alGet store.file_map relativePath).getD [] then
      (⟨.success, "No changes detected", none⟩, none)
    else if !(fileFailedOf maxLines batchSize relativePath content store resp).isEmpty then
      (⟨.error, "File indexing failed", none⟩, none)
    else
      (⟨.success, "Indexed file " ++ relativePath, none⟩,
       some ⟨1,
             collectBlobNames
               (alSet store.file_map relativePath (fileNextHashes maxLines relativePath content)),
             alSet store.file_map relativePath (fileNextHashes maxLines relativePath content)⟩)

/-! ## Lemmas: JS set and association-list embeddings -/

theorem contains_iff {l : List String} {a : String} :
    l.contains a = true ↔ a ∈ l := by
  simp [List.contains, List.elem_iff]

theorem mem_setAdd {acc : List String} {y x : String} :
    x ∈ setAdd acc y ↔ x ∈ acc ∨ x = y := by
  unfold setAdd
  by_cases h : y ∈ acc
  · simp only [if_pos h]
    constructor
    · exact Or.inl
    · rintro (hx | rfl)
      · exact hx
      · exact h
  · simp [if_neg h]

theorem mem_foldl_setAdd (xs : List String) :
    ∀ (acc : List String) (x : String),
      x ∈ xs.foldl setAdd acc ↔ x ∈ acc ∨ x ∈ xs := by
  induction xs with
  | nil => simp
  | cons y ys ih =>
    intro acc x
    simp only [List.foldl_cons]
    rw [ih, mem_setAdd, List.mem_cons]
    tauto

theorem mem_setOfList {xs : List String} {x : String} :
    x ∈ setOfList xs ↔ x ∈ xs := by
  unfold setOfList
  rw [mem_foldl_setAdd]
  simp

theorem nodup_foldl_setAdd (xs : List String) :
    ∀ (acc : List String), acc.Nodup → (xs.foldl setAdd acc).Nodup := by
  induction xs with
  | nil => simpa using fun _ h => h
  | cons y ys ih =>
    intro acc hacc
    simp only [List.foldl_cons]
    refine ih _ ?_
    unfold setAdd
    by_cases h : y ∈ acc
    · simpa [h] using hacc
    · simpa [h, List.nodup_append] using hacc

theorem setOfList_nodup (xs : List String) : (setOfList xs).Nodup :=
  nodup_foldl_setAdd xs [] List.nodup_nil

theorem foldl_setAdd_of_disjoint (xs : List String) :
    ∀ (acc : List String), xs.Nodup → (∀ x ∈ xs, x ∉ acc) →
      xs.foldl setAdd acc = acc ++ xs := by
  induction xs with
  | nil => simp
  | cons y ys ih =>
    intro acc hnd hdis
    simp only [List.foldl_cons]
    have hy : y ∉ acc := hdis y (by simp)
    have hstep : setAdd acc y = acc ++ [y] := by simp [setAdd, hy]
    rw [hstep, ih (acc ++ [y]) hnd.of_cons]
    · simp
    · intro x hx
      simp only [List.mem_append, List.mem_singleton]
      rintro (hc | rfl)
      · exact hdis x (by simp [hx]) hc
      · exact (List.nodup_cons.mp hnd).1 hx

theorem setOfList_eq_self {xs : List String} (h : xs.Nodup) :
    setOfList xs = xs := by
  simpa using foldl_setAdd_of_disjoint xs [] h (by simp)

theorem setOfList_toFinset (xs : List String) :
    (setOfList xs).toFinset = xs.toFinset := by
  ext a
  simp [List.mem_toFinset, mem_setOfList]

theorem length_setOfList (xs : List String) :
    (setOfList xs).length = xs.toFinset.card := by
  rw [← List.toFinset_card_of_nodup (setOfList_nodup xs), setOfList_toFinset]

theorem mem_collectBlobNames {fm : List (String × List String)} {d : String} :
    d ∈ collectBlobNames fm ↔ ∃ e ∈ fm, d ∈ e.2 := by
  unfold collectBlobNames
  rw [mem_setOfList, List.mem_flatMap]

/-! ## Lemmas: batch slicing -/

theorem ceilDiv_eq_zero {n m : Nat} (hm : 1 ≤ m) (h : ceilDiv n m = 0) : n = 0 := by
  unfold ceilDiv at h
  rw [Nat.div_eq_zero_iff (by omega)] at h
  omega

theorem ceilDiv_zero {m : Nat} (hm : 1 ≤ m) : ceilDiv 0 m = 0 := by
  unfold ceilDiv
  rw [Nat.div_eq_zero_iff (by omega)]
  omega

theorem ceilDiv_zero_any (m : Nat) : ceilDiv 0 m = 0 := by
  unfold ceilDiv
  cases m with
  | zero => rfl
  | succ k => exact Nat.div_eq_of_lt (by omega)

theorem ceilDiv_succ {n m : Nat} (hm : 1 ≤ m) (hn : 0 < n) :
    ceilDiv n m = ceilDiv (n - m) m + 1 := by
  unfold ceilDiv
  by_cases h : n ≤ m
  · have h1 : (n + m - 1) / m = 1 := by
      apply Nat.div_eq_of_lt_le <;> omega
    have h0 : (n - m + m - 1) / m = 0 := by
      rw [Nat.div_eq_zero_iff (by omega)]
      omega
    omega
  · have e : n + m - 1 = (n - m + m - 1) + m := by omega
    rw [e, Nat.add_div_right _ (by omega)]

theorem lt_of_lt_ceilDiv {i n m : Nat} (hm : 1 ≤ m) (h : i < ceilDiv n m) :
    i * m < n := by
  unfold ceilDiv at h
  by_contra hc
  push_neg at hc
  have hlt : (n + m - 1) / m < i + 1 := by
    rw [Nat.div_lt_iff_lt_mul (by omega)]
    have e : (i + 1) * m = i * m + m := by ring
    omega
  omega

/-- The consecutive batches of size `m` tile the whole list. -/
theorem chunks_flatten {α : Type} (m : Nat) (hm : 1 ≤ m) :
    ∀ (k : Nat) (L : List α), ceilDiv L.length m = k →
      ((List.range k).map (fun i => (L.drop (i * m)).take m)).flatten = L := by
  intro k
  induction k with
  | zero =>
    intro L hk
    have : L.length = 0 := ceilDiv_eq_zero hm hk
    simp [List.eq_nil_of_length_eq_zero this]
  | succ k ih =>
    intro L hk
    have hn : 0 < L.length := by
      by_contra hc
      push_neg at hc
      have h0 : L.length = 0 := by omega
      rw [h0, ceilDiv_zero hm] at hk
      omega
    have hrec : ceilDiv (L.length - m) m = k := by
      have := ceilDiv_succ hm hn
      omega
    rw [List.range_succ_eq_map, List.map_cons, List.map_map, List.flatten_cons]
    have hcomp :
        ((fun i => (L.drop (i * m)).take m) ∘ Nat.succ) =
          (fun i => ((L.drop m).drop (i * m)).take m) := by
      funext i
      simp only [Function.comp_apply, List.drop_drop]
      congr 1
      rw [Nat.succ_mul]
      ring
    rw [hcomp, ih (L.drop m) (by simpa using hrec)]
    simpa using List.take_append_drop m L

/-- A batch inside the range is non-empty. -/
theorem slice_ne_nil {α : Type} {L : List α} {m i : Nat} (hm : 1 ≤ m)
    (hi : i < ceilDiv L.length m) : (L.drop (i * m)).take m ≠ [] := by
  have hlt : i * m < L.length := lt_of_lt_ceilDiv hm hi
  have hlen : ((L.drop (i * m)).take m).length = min m (L.length - i * m) := by
    simp [List.length_take, List.length_drop]
  intro hnil
  rw [hnil] at hlen
  simp at hlen
  omega

/-! ## Lemmas: the line scanner reproduces its input -/

theorem slAux_flatten : ∀ (acc l : List Char), (slAux acc l).flatten = acc.reverse ++ l := by
  intro acc l
  induction acc, l using slAux.induct <;>
    simp_all [slAux, List.isEmpty_iff]

theorem splitLines_flatten (c : String) : (splitLines c).flatten = c.data := by
  simpa using slAux_flatten [] c.data

theorem string_mk_data (s : String) : String.mk s.data = s := rfl

/-- C2's concatenation property, phrased on the underlying character
lists: the chunk slices tile the line list, the line list tiles the
content. -/
theorem splitFileContent_concat (maxLines : Nat) (hm : 1 ≤ maxLines)
    (p c : String) :
    String.mk (((splitFileContent maxLines p c).map (fun b => b.content.data)).flatten) = c := by
  unfold splitFileContent
  by_cases h : (splitLines c).length ≤ maxLines
  · simp only [if_pos h, List.map_cons, List.map_nil, List.flatten_cons, List.flatten_nil,
      List.append_nil]
  · simp only [if_neg h, List.map_map]
    have hmapped :
        (List.map ((fun b : Blob => b.content.data) ∘
            (fun chunkIdx =>
              ⟨p ++ "#chunk" ++ toString (chunkIdx + 1) ++ "of" ++
                 toString (ceilDiv (splitLines c).length maxLines),
               String.mk (((splitLines c).drop (chunkIdx * maxLines)).take maxLines).flatten,
               p⟩))
          (List.range (ceilDiv (splitLines c).length maxLines))) =
        List.map (fun i => (((splitLines c).drop (i * maxLines)).take maxLines).flatten)
          (List.range (ceilDiv (splitLines c).length maxLines)) := by
      apply List.map_congr_left
      intro i _
      rfl
    rw [hmapped]
    have hff :
        (List.map (fun i => (((splitLines c).drop (i * maxLines)).take maxLines).flatten)
            (List.range (ceilDiv (splitLines c).length maxLines))).flatten =
          ((List.map (fun i => ((splitLines c).drop (i * maxLines)).take maxLines)
            (List.range (ceilDiv (splitLines c).length maxLines))).flatten).flatten := by
      rw [List.flatten_flatten, List.map_map]
      rfl
    rw [hff, chunks_flatten maxLines hm _ (splitLines c) rfl, splitLines_flatten]

/-- C2 (claim): the splitter keeps a small file whole, splits a large file
into `ceil(totalLines / maxLinesPerBlob)` contiguous chunks with 1-indexed
`#chunk{i}of{n}` suffixes, and concatenation reproduces the content. -/
theorem splitFileContent_spec (maxLines : Nat) (p c : String) (hm : 1 ≤ maxLines) :
    ((splitLines c).length ≤ maxLines →
        splitFileContent maxLines p c = [⟨p, c, p⟩]) ∧
    (maxLines < (splitLines c).length →
        (splitFileContent maxLines p c).length = ceilDiv (splitLines c).length maxLines ∧
        ∀ i, i < ceilDiv (splitLines c).length maxLines →
          (splitFileContent maxLines p c)[i]? =
            some ⟨p ++ "#chunk" ++ toString (i + 1) ++ "of" ++
                    toString (ceilDiv (splitLines c).length maxLines),
                  String.mk (((splitLines c).drop (i * maxLines)).take maxLines).flatten,
                  p⟩) ∧
    String.mk (((splitFileContent maxLines p c).map (fun b => b.content.data)).flatten) = c := by
  refine ⟨?_, ?_, splitFileContent_concat maxLines hm p c⟩
  · intro h
    unfold splitFileContent
    rw [if_pos h]
  · intro h
    unfold splitFileContent
    rw [if_neg (by omega)]
    constructor
    · simp
    · intro i hi
      simp [List.getElem?_map, List.getElem?_range hi]

/-! ## Lemmas: the candidate file map -/

theorem alPush_vals_ne_nil {m : List (String × List String)} {k h : String}
    (hm : ∀ e ∈ m, e.2 ≠ []) : ∀ e ∈ alPush m k h, e.2 ≠ [] := by
  intro e he
  unfold alPush at he
  split at he
  · rcases List.mem_map.mp he with ⟨e', he', rfl⟩
    by_cases hk : e'.1 = k
    · simp [hk]
    · simpa [hk] using hm e' he'
  · rcases List.mem_append.mp he with he' | he'
    · exact hm e he'
    · simp only [List.mem_singleton] at he'
      subst he'
      simp

theorem alPush_vals_sub {m : List (String × List String)} {k h : String} :
    ∀ e ∈ alPush m k h, ∀ x ∈ e.2, (∃ e' ∈ m, x ∈ e'.2) ∨ x = h := by
  intro e he x hx
  unfold alPush at he
  split at he
  · rcases List.mem_map.mp he with ⟨e', he', rfl⟩
    by_cases hk : e'.1 = k
    · simp only [hk, if_pos rfl] at hx
      rcases List.mem_append.mp hx with hx' | hx'
      · exact Or.inl ⟨e', he', hx'⟩
      · simp only [List.mem_singleton] at hx'
        exact Or.inr hx'
    · simp only [if_neg hk] at hx
      exact Or.inl ⟨e', he', hx⟩
  · rcases List.mem_append.mp he with he' | he'
    · exact Or.inl ⟨e, he', hx⟩
    · simp only [List.mem_singleton] at he'
      subst he'
      simp only [List.mem_singleton] at hx
      exact Or.inr hx

theorem alPush_keys {m : List (String × List String)} {k h : String} :
    ∀ e ∈ alPush m k h, (∃ e' ∈ m, e'.1 = e.1) ∨ e.1 = k := by
  intro e he
  unfold alPush at he
  split at he
  · rcases List.mem_map.mp he with ⟨e', he', rfl⟩
    by_cases hk : e'.1 = k
    · simp [hk]
    · exact Or.inl ⟨e', he', by simp [hk]⟩
  · rcases List.mem_append.mp he with he' | he'
    · exact Or.inl ⟨e, he', rfl⟩
    · simp only [List.mem_singleton] at he'
      subst he'
      simp

theorem alPush_val_mono {m : List (String × List String)} {k h x : String}
    (hx : ∃ e ∈ m, x ∈ e.2) : ∃ e ∈ alPush m k h, x ∈ e.2 := by
  rcases hx with ⟨e, he, hxe⟩
  unfold alPush
  split
  · refine ⟨if e.1 = k then (e.1, e.2 ++ [h]) else e, List.mem_map.mpr ⟨e, he, rfl⟩, ?_⟩
    by_cases hk : e.1 = k <;> simp [hk, hxe]
  · exact ⟨e, List.mem_append.mpr (Or.inl he), hxe⟩

theorem alPush_self {m : List (String × List String)} {k h : String} :
    ∃ e ∈ alPush m k h, h ∈ e.2 := by
  unfold alPush
  split
  next hany =>
    rcases List.any_eq_true.mp hany with ⟨e, he, hk⟩
    simp only [decide_eq_true_eq] at hk
    refine ⟨(e.1, e.2 ++ [h]), List.mem_map.mpr ⟨e, he, by simp [hk]⟩, by simp⟩
  next hany =>
    exact ⟨(k, [h]), List.mem_append.mpr (Or.inr (by simp)), by simp⟩

/-- The step of `buildFileMap`. -/
def bfmStep (fm : List (String × List String)) (b : Blob) : List (String × List String) :=
  alPush fm b.sourcePath (calculateBlobName b.path b.content)

theorem buildFileMap_eq_foldl (blobs : List Blob) :
    buildFileMap blobs = blobs.foldl bfmStep [] := rfl

theorem foldl_bfm_vals_ne_nil :
    ∀ (blobs : List Blob) (acc : List (String × List String)),
      (∀ e ∈ acc, e.2 ≠ []) → ∀ e ∈ blobs.foldl bfmStep acc, e.2 ≠ [] := by
  intro blobs
  induction blobs with
  | nil => intro acc hacc; simpa using hacc
  | cons b bs ih =>
    intro acc hacc
    simp only [List.foldl_cons]
    exact ih _ (alPush_vals_ne_nil hacc)

theorem foldl_bfm_vals_sub :
    ∀ (blobs : List Blob) (acc : List (String × List String)),
      ∀ e ∈ blobs.foldl bfmStep acc, ∀ x ∈ e.2,
        (∃ e' ∈ acc, x ∈ e'.2) ∨ x ∈ candidateHashes blobs := by
  intro blobs
  induction blobs with
  | nil => intro acc e he x hx; exact Or.inl ⟨e, he, hx⟩
  | cons b bs ih =>
    intro acc e he x hx
    simp only [List.foldl_cons] at he
    rcases ih _ e he x hx with hacc | hbs
    · rcases hacc with ⟨e', he', hx'⟩
      rcases alPush_vals_sub e' he' x hx' with h' | h'
      · exact Or.inl h'
      · exact Or.inr (by simp [candidateHashes, h'])
    · exact Or.inr (by simp [candidateHashes] at hbs ⊢; tauto)

theorem foldl_bfm_keys :
    ∀ (blobs : List Blob) (acc : List (String × List String)),
      ∀ e ∈ blobs.foldl bfmStep acc,
        (∃ e' ∈ acc, e'.1 = e.1) ∨ ∃ b ∈ blobs, b.sourcePath = e.1 := by
  intro blobs
  induction blobs with
  | nil => intro acc e he; exact Or.inl ⟨e, he, rfl⟩
  | cons b bs ih =>
    intro acc e he
    simp only [List.foldl_cons] at he
    rcases ih _ e he with hacc | hbs
    · rcases hacc with ⟨e', he', hk⟩
      rcases alPush_keys e' he' with h' | h'
      · rcases h' with ⟨e'', he'', hk''⟩
        exact Or.inl ⟨e'', he'', hk''.trans hk⟩
      · exact Or.inr ⟨b, by simp, h'.symm.trans hk⟩
    · rcases hbs with ⟨b', hb', hk'⟩
      exact Or.inr ⟨b', by simp [hb'], hk'⟩

theorem foldl_bfm_complete :
    ∀ (blobs : List Blob) (acc : List (String × List String)) (x : String),
      (∃ e ∈ acc, x ∈ e.2) ∨ x ∈ candidateHashes blobs →
      ∃ e ∈ blobs.foldl bfmStep acc, x ∈ e.2 := by
  intro blobs
  induction blobs with
  | nil =>
    intro acc x h
    rcases h with h | h
    · exact h
    · simp [candidateHashes] at h
  | cons b bs ih =>
    intro acc x h
    simp only [List.foldl_cons]
    apply ih
    rcases h with h | h
    · exact Or.inl (alPush_val_mono h)
    · simp only [candidateHashes, List.map_cons, List.mem_cons] at h
      rcases h with rfl | h
      · exact Or.inl alPush_self
      · exact Or.inr h

theorem buildFileMap_vals_ne_nil {blobs : List Blob} :
    ∀ e ∈ buildFileMap blobs, e.2 ≠ [] :=
  foldl_bfm_vals_ne_nil blobs [] (by simp)

theorem buildFileMap_vals_sub {blobs : List Blob} :
    ∀ e ∈ buildFileMap blobs, ∀ x ∈ e.2, x ∈ candidateHashes blobs := by
  intro e he x hx
  rcases foldl_bfm_vals_sub blobs [] e he x hx with h | h
  · simp at h
  · exact h

theorem buildFileMap_keys {blobs : List Blob} :
    ∀ e ∈ buildFileMap blobs, ∃ b ∈ blobs, b.sourcePath = e.1 := by
  intro e he
  rcases foldl_bfm_keys blobs [] e he with h | h
  · simp at h
  · exact h

theorem buildFileMap_complete {blobs : List Blob} {x : String}
    (hx : x ∈ candidateHashes blobs) : ∃ e ∈ buildFileMap blobs, x ∈ e.2 :=
  foldl_bfm_complete blobs [] x (Or.inr hx)

/-! ## Lemmas: batch verification and the upload loop -/

/-- A verified response is contained in its expected batch: the expected
digests are members of the response and the deduplicated lengths agree, so
the two digest sets are equal. -/
theorem batchOk_sub {expected lst : List String}
    (h : batchOk expected (some lst) = true) : ∀ x ∈ lst, x ∈ expected := by
  unfold batchOk at h
  simp only [Bool.and_eq_true, List.all_eq_true, decide_eq_true_eq] at h
  obtain ⟨⟨hne, hlen⟩, hsub⟩ := h
  intro x hx
  have hfin : expected.toFinset = lst.toFinset := by
    apply Finset.eq_of_subset_of_card_le
    · intro a ha
      rw [List.mem_toFinset] at ha ⊢
      exact contains_iff.mp (hsub a ha)
    · rw [← length_setOfList, ← length_setOfList, hlen]
  have : x ∈ lst.toFinset := List.mem_toFinset.mpr hx
  rw [← hfin, List.mem_toFinset] at this
  exact this

theorem batchOk_resp_ne_nil {expected : List String} {r : Option (List String)}
    (h : batchOk expected r = true) : r.getD [] ≠ [] := by
  match r with
  | none => simp [batchOk] at h
  | some lst =>
    unfold batchOk at h
    simp only [Bool.and_eq_true] at h
    have := h.1.1
    simpa [List.isEmpty_iff] using this

theorem batchOk_self {l : List String} (hl : l ≠ []) : batchOk l (some l) = true := by
  unfold batchOk
  simp [List.isEmpty_iff, hl, List.all_eq_true, contains_iff]

theorem foldl_rb_sub (nh : List String) (bs : Nat) (resp : Nat → Option (List String)) :
    ∀ (l : List Nat) (acc : List String × List Nat),
      (∀ x ∈ acc.1, x ∈ nh) →
      ∀ x ∈ (l.foldl (rbStep nh bs resp) acc).1, x ∈ nh := by
  intro l
  induction l with
  | nil => intro acc hacc; simpa using hacc
  | cons i is ih =>
    intro acc hacc
    simp only [List.foldl_cons]
    apply ih
    intro x hx
    unfold rbStep at hx
    split at hx
    next hok =>
      rcases List.mem_append.mp hx with hx' | hx'
      · exact hacc x hx'
      · match hr : resp i with
        | none => rw [hr] at hx'; simp at hx'
        | some lst =>
          rw [hr] at hok hx'
          simp only [Option.getD_some] at hx'
          have := batchOk_sub hok x hx'
          exact List.mem_of_mem_drop (List.mem_of_mem_take this)
    next => exact hacc x hx

theorem runBatches_sub {nh : List String} {bs : Nat} {resp : Nat → Option (List String)} :
    ∀ x ∈ (runBatches nh bs resp).1, x ∈ nh :=
  foldl_rb_sub nh bs resp _ ([], []) (by simp)

theorem foldl_rb_fail_mono (nh : List String) (bs : Nat) (resp : Nat → Option (List String)) :
    ∀ (l : List Nat) (acc : List String × List Nat),
      acc.2 ≠ [] → (l.foldl (rbStep nh bs resp) acc).2 ≠ [] := by
  intro l
  induction l with
  | nil => intro acc hacc; simpa using hacc
  | cons i is ih =>
    intro acc hacc
    simp only [List.foldl_cons]
    apply ih
    unfold rbStep
    split
    · exact hacc
    · simp

theorem foldl_rb_fail_mem (nh : List String) (bs : Nat) (resp : Nat → Option (List String)) :
    ∀ (l : List Nat) (acc : List String × List Nat) (i : Nat),
      i ∈ l → batchOk ((nh.drop (i * bs)).take bs) (resp i) = false →
      (l.foldl (rbStep nh bs resp) acc).2 ≠ [] := by
  intro l
  induction l with
  | nil => intro acc i h; simp at h
  | cons j js ih =>
    intro acc i hi hfail
    simp only [List.foldl_cons]
    rcases List.mem_cons.mp hi with rfl | hi'
    · apply foldl_rb_fail_mono
      unfold rbStep
      rw [hfail]
      simp
    · exact ih _ i hi' hfail

theorem foldl_rb_up_mono (nh : List String) (bs : Nat) (resp : Nat → Option (List String)) :
    ∀ (l : List Nat) (acc : List String × List Nat),
      acc.1 ≠ [] → (l.foldl (rbStep nh bs resp) acc).1 ≠ [] := by
  intro l
  induction l with
  | nil => intro acc hacc; simpa using hacc
  | cons i is ih =>
    intro acc hacc
    simp only [List.foldl_cons]
    apply ih
    unfold rbStep
    split
    · simp [hacc]
    · exact hacc

theorem foldl_rb_up_mem (nh : List String) (bs : Nat) (resp : Nat → Option (List String)) :
    ∀ (l : List Nat) (acc : List String × List Nat) (i : Nat),
      i ∈ l → batchOk ((nh.drop (i * bs)).take bs) (resp i) = true →
      (l.foldl (rbStep nh bs resp) acc).1 ≠ [] := by
  intro l
  induction l with
  | nil => intro acc i h; simp at h
  | cons j js ih =>
    intro acc i hi hok
    simp only [List.foldl_cons]
    rcases List.mem_cons.mp hi with rfl | hi'
    · apply foldl_rb_up_mono
      unfold rbStep
      rw [hok]
      simp only [if_pos rfl]
      intro hnil
      exact batchOk_resp_ne_nil hok (List.append_eq_nil.mp hnil).2
    · exact ih _ i hi' hok

theorem foldl_rb_all_fail (nh : List String) (bs : Nat) (resp : Nat → Option (List String)) :
    ∀ (l : List Nat) (acc : List String × List Nat),
      (∀ i ∈ l, batchOk ((nh.drop (i * bs)).take bs) (resp i) = false) →
      (l.foldl (rbStep nh bs resp) acc).1 = acc.1 := by
  intro l
  induction l with
  | nil => intro acc _; rfl
  | cons i is ih =>
    intro acc hall
    simp only [List.foldl_cons]
    rw [ih _ (fun j hj => hall j (by simp [hj]))]
    unfold rbStep
    rw [hall i (by simp)]
    simp

theorem foldl_rb_perfect (nh : List String) (bs : Nat) (resp : Nat → Option (List String)) :
    ∀ (l : List Nat) (acc : List String × List Nat),
      (∀ i ∈ l, resp i = some ((nh.drop (i * bs)).take bs) ∧
                (nh.drop (i * bs)).take bs ≠ []) →
      l.foldl (rbStep nh bs resp) acc =
        (acc.1 ++ (l.map (fun i => (nh.drop (i * bs)).take bs)).flatten, acc.2) := by
  intro l
  induction l with
  | nil => intro acc _; simp
  | cons i is ih =>
    intro acc hall
    obtain ⟨hr, hne⟩ := hall i (by simp)
    simp only [List.foldl_cons]
    rw [ih _ (fun j hj => hall j (by simp [hj]))]
    unfold rbStep
    rw [hr, batchOk_self hne]
    simp

/-- With every batch answered exactly as expected, the upload loop returns
all the new digests and no failures. -/
theorem runBatches_perfect {nh : List String} {bs : Nat}
    {resp : Nat → Option (List String)} (hbs : 1 ≤ bs)
    (h : ∀ i < ceilDiv nh.length bs, resp i = some ((nh.drop (i * bs)).take bs)) :
    runBatches nh bs resp = (nh, []) := by
  unfold runBatches
  rw [foldl_rb_perfect nh bs resp _ ([], [])
      (fun i hi => ⟨h i (List.mem_range.mp hi), slice_ne_nil hbs (List.mem_range.mp hi)⟩)]
  rw [chunks_flatten bs hbs _ nh rfl]
  simp

/-! ## Lemmas: the committed project store -/

theorem mem_availableOf {store : IndexStore} {blobs : List Blob} {bs : Nat}
    {resp : Nat → Option (List String)} {d : String} :
    d ∈ availableOf store blobs bs resp ↔
      d ∈ existingOf store blobs ∨ d ∈ (runBatches (newOf store blobs) bs resp).1 := by
  unfold availableOf
  rw [mem_setOfList, List.mem_append]

theorem existingOf_sub {store : IndexStore} {blobs : List Blob} :
    ∀ d ∈ existingOf store blobs, d ∈ allBlobHashes blobs := by
  intro d hd
  exact (List.mem_filter.mp hd).1

theorem existingOf_contains {store : IndexStore} {blobs : List Blob} :
    ∀ d ∈ existingOf store blobs, store.blob_names.contains d = true := by
  intro d hd
  exact (List.mem_filter.mp hd).2

theorem newOf_sub {store : IndexStore} {blobs : List Blob} :
    ∀ d ∈ newOf store blobs, d ∈ allBlobHashes blobs := by
  intro d hd
  exact (List.mem_filter.mp hd).1

theorem availableOf_sub_candidates {store : IndexStore} {blobs : List Blob} {bs : Nat}
    {resp : Nat → Option (List String)} :
    ∀ d ∈ availableOf store blobs bs resp, d ∈ candidateHashes blobs := by
  intro d hd
  rcases mem_availableOf.mp hd with h | h
  · exact mem_setOfList.mp (existingOf_sub d h)
  · exact mem_setOfList.mp (newOf_sub d (runBatches_sub d h))

theorem mem_filteredMapOf {store : IndexStore} {blobs : List Blob} {bs : Nat}
    {resp : Nat → Option (List String)} {e : String × List String} :
    e ∈ filteredMapOf store blobs bs resp ↔
      ∃ v, (e.1, v) ∈ buildFileMap blobs ∧
        e.2 = v.filter (fun h => (availableOf store blobs bs resp).contains h) ∧
        e.2 ≠ [] := by
  unfold filteredMapOf
  constructor
  · intro he
    obtain ⟨hmem, hne⟩ := List.mem_filter.mp he
    obtain ⟨orig, horig, heq⟩ := List.mem_map.mp hmem
    refine ⟨orig.2, ?_, ?_, ?_⟩
    · have h1 : e.1 = orig.1 := by rw [← heq]
      rw [h1]
      exact horig
    · rw [← heq]
    · simpa [List.isEmpty_iff] using hne
  · rintro ⟨v, hv, hfil, hne⟩
    apply List.mem_filter.mpr
    constructor
    · apply List.mem_map.mpr
      refine ⟨(e.1, v), hv, ?_⟩
      rw [Prod.ext_iff]
      exact ⟨rfl, hfil.symm⟩
    · simpa [List.isEmpty_iff] using hne

/-- The fileMap/blobNames invariant of a store. -/
def storeInv (s : IndexStore) : Prop :=
  ∀ d, d ∈ s.blob_names ↔ ∃ e ∈ s.file_map, d ∈ e.2

theorem collect_storeInv (m : List (String × List String)) :
    storeInv ⟨1, collectBlobNames m, m⟩ := by
  intro d
  exact mem_collectBlobNames

theorem removeFileFromIndex_commit {relPath : String} {store : IndexStore}
    {reason : String} {res : IndexResult} {s : IndexStore}
    (h : removeFileFromIndex relPath store reason = (res, some s)) :
    s = ⟨1, collectBlobNames (alRemove store.file_map relPath),
          alRemove store.file_map relPath⟩ := by
  unfold removeFileFromIndex at h
  split at h
  · simp at h
  · simp only [Prod.mk.injEq, Option.some.injEq] at h
    exact h.2.symm

theorem indexFile_commit {maxLines batchSize : Nat} {relPath : String}
    {check : FileCheck} {store : IndexStore} {resp : Nat → Option (List String)}
    {res : IndexResult} {s : IndexStore}
    (h : indexFile maxLines batchSize relPath check store resp = (res, some s)) :
    ∃ m, s = ⟨1, collectBlobNames m, m⟩ := by
  cases check with
  | outsideRoot => simp [indexFile] at h
  | excluded => exact ⟨_, removeFileFromIndex_commit h⟩
  | extNotAllowed => exact ⟨_, removeFileFromIndex_commit h⟩
  | notFound => exact ⟨_, removeFileFromIndex_commit h⟩
  | present content =>
    simp only [indexFile] at h
    split at h
    · simp at h
    · split at h
      · simp at h
      · simp only [Prod.mk.injEq, Option.some.injEq] at h
        exact ⟨_, h.2.symm⟩

theorem indexProject_commit {batchSize : Nat} {blobs : List Blob} {store : IndexStore}
    {resp : Nat → Option (List String)} {res : IndexResult} {s : IndexStore}
    (h : indexProject batchSize blobs store resp = (res, some s)) :
    s = ⟨1, availableOf store blobs batchSize resp,
          filteredMapOf store blobs batchSize resp⟩ := by
  unfold indexProject at h
  split at h
  · simp at h
  · split at h
    · simp at h
    · simp only [Prod.mk.injEq, Option.some.injEq] at h
      exact h.2.symm

theorem indexProject_storeInv {batchSize : Nat} {blobs : List Blob} {store : IndexStore}
    {resp : Nat → Option (List String)} {res : IndexResult} {s : IndexStore}
    (h : indexProject batchSize blobs store resp = (res, some s)) : storeInv s := by
  rw [indexProject_commit h]
  intro d
  constructor
  · intro hd
    have hd' : d ∈ availableOf store blobs batchSize resp := hd
    have hcand : d ∈ candidateHashes blobs := availableOf_sub_candidates d hd'
    obtain ⟨e, he, hde⟩ := buildFileMap_complete hcand
    refine ⟨(e.1, e.2.filter (fun h => (availableOf store blobs batchSize resp).contains h)),
            ?_, ?_⟩
    · apply mem_filteredMapOf.mpr
      refine ⟨e.2, by simpa using he, rfl, ?_⟩
      intro hnil
      have hmem : d ∈ e.2.filter (fun h => (availableOf store blobs batchSize resp).contains h) :=
        List.mem_filter.mpr ⟨hde, contains_iff.mpr hd'⟩
      have hnil' : e.2.filter (fun h => (availableOf store blobs batchSize resp).contains h) = [] := hnil
      rw [hnil'] at hmem
      simp at hmem
    · exact List.mem_filter.mpr ⟨hde, contains_iff.mpr hd'⟩
  · rintro ⟨e, he, hde⟩
    obtain ⟨v, _, hfil, _⟩ := mem_filteredMapOf.mp he
    rw [hfil] at hde
    exact contains_iff.mp (List.mem_filter.mp hde).2

/-- C1 (claim): after any successful commit of `indexProject`, `indexFile`
or `removeFileFromIndex`, the persisted `blob_names` is exactly the union
of the digests in `file_map`. -/
theorem commit_blobNames_invariant :
    (∀ (batchSize : Nat) (blobs : List Blob) (store : IndexStore)
       (resp : Nat → Option (List String)) (res : IndexResult) (s : IndexStore),
       indexProject batchSize blobs store resp = (res, some s) → storeInv s) ∧
    (∀ (maxLines batchSize : Nat) (relPath : String) (check : FileCheck)
       (store : IndexStore) (resp : Nat → Option (List String))
       (res : IndexResult) (s : IndexStore),
       indexFile maxLines batchSize relPath check store resp = (res, some s) → storeInv s) ∧
    (∀ (relPath : String) (store : IndexStore) (reason : String)
       (res : IndexResult) (s : IndexStore),
       removeFileFromIndex relPath store reason = (res, some s) → storeInv s) := by
  refine ⟨?_, ?_, ?_⟩
  · intro batchSize blobs store resp res s h
    exact indexProject_storeInv h
  · intro maxLines batchSize relPath check store resp res s h
    obtain ⟨m, rfl⟩ := indexFile_commit h
    exact collect_storeInv m
  · intro relPath store reason res s h
    rw [removeFileFromIndex_commit h]
    exact collect_storeInv _

/-- C3 (amended): after a partially failed full reindex, every committed
digest is previously-existing or verified-uploaded; a candidate file all
of whose digests are unavailable is absent from the committed `fileMap`;
and every committed entry is its candidate digest list filtered to the
available set — possibly truncated, but never empty. -/
theorem indexProject_partial_failure :
    ∀ (batchSize : Nat) (blobs : List Blob) (store : IndexStore)
      (resp : Nat → Option (List String)) (res : IndexResult) (s : IndexStore),
      indexProject batchSize blobs store resp = (res, some s) →
      (∀ d ∈ s.blob_names,
         store.blob_names.contains d = true ∨
           d ∈ (runBatches (newOf store blobs) batchSize resp).1) ∧
      (∀ f : String,
         (∀ e ∈ buildFileMap blobs, e.1 = f →
            ∀ x ∈ e.2, x ∉ availableOf store blobs batchSize resp) →
         ¬ ∃ e ∈ s.file_map, e.1 = f) ∧
      (∀ e ∈ s.file_map,
         ∃ v, (e.1, v) ∈ buildFileMap blobs ∧
           e.2 = v.filter (fun x => (availableOf store blobs batchSize resp).contains x) ∧
           e.2 ≠ []) := by
  intro batchSize blobs store resp res s h
  have hs := indexProject_commit h
  subst hs
  refine ⟨?_, ?_, ?_⟩
  · intro d hd
    rcases mem_availableOf.mp hd with h' | h'
    · exact Or.inl (existingOf_contains d h')
    · exact Or.inr h'
  · intro f hall ⟨e, he, hef⟩
    obtain ⟨v, hv, hfil, hne⟩ := mem_filteredMapOf.mp he
    apply hne
    rw [hfil]
    apply List.filter_eq_nil_iff.mpr
    intro a ha
    have := hall (e.1, v) hv hef a ha
    simpa [contains_iff] using this
  · intro e he
    exact mem_filteredMapOf.mp he

/-- C4 (claim): during a single-file reindex of a changed file, any
failing upload batch makes the whole operation return `error` with no
commit: the persisted store is untouched. -/
theorem indexFile_batch_failure :
    ∀ (maxLines batchSize : Nat) (relPath content : String) (store : IndexStore)
      (resp : Nat → Option (List String)),
      fileNextHashes maxLines relPath content ≠ (alGet store.file_map relPath).getD [] →
      (∃ i, i < ceilDiv (hashesToUploadOf maxLines relPath content store).length batchSize ∧
         batchOk
           (((hashesToUploadOf maxLines relPath content store).drop (i * batchSize)).take
             batchSize)
           (resp i) = false) →
      indexFile maxLines batchSize relPath (.present content) store resp =
        (⟨.error, "File indexing failed", none⟩, none) := by
  intro maxLines batchSize relPath content store resp hdiff hfail
  obtain ⟨i, hik, hnotok⟩ := hfail
  have hne : ¬ (hashesToUploadOf maxLines relPath content store).isEmpty = true := by
    intro hemp
    rw [List.isEmpty_iff] at hemp
    rw [hemp] at hik
    simp only [List.length_nil, ceilDiv_zero_any] at hik
    omega
  have hfailed : (fileFailedOf maxLines batchSize relPath content store resp) ≠ [] := by
    unfold fileFailedOf
    rw [if_neg hne]
    exact foldl_rb_fail_mem _ _ _ _ ([], []) i (List.mem_range.mpr hik) hnotok
  simp only [indexFile]
  rw [if_neg hdiff, if_pos (by simpa [List.isEmpty_iff] using hfailed)]

/-- C5 (claim): on a very first full reindex (empty store), if every
batch fails the operation errors and commits nothing; with any existing
digest, nothing new to upload, or any successful batch, it commits. -/
theorem indexProject_first_run :
    ∀ (batchSize : Nat) (blobs : List Blob) (resp : Nat → Option (List String)),
      blobs ≠ [] →
      ((∀ i, i < ceilDiv (newOf emptyStore blobs).length batchSize →
          batchOk
            (((newOf emptyStore blobs).drop (i * batchSize)).take batchSize)
            (resp i) = false) →
        indexProject batchSize blobs emptyStore resp =
          (⟨.error, "All batches failed on first indexing", none⟩, none)) ∧
      (∀ store : IndexStore,
        (existingOf store blobs ≠ [] ∨ newOf store blobs = [] ∨
          ∃ i, i < ceilDiv (newOf store blobs).length batchSize ∧
            batchOk
              (((newOf store blobs).drop (i * batchSize)).take batchSize)
              (resp i) = true) →
        (indexProject batchSize blobs store resp).2.isSome) := by
  intro batchSize blobs resp hblobs
  have hall_ne : allBlobHashes blobs ≠ [] := by
    have : candidateHashes blobs ≠ [] := by
      unfold candidateHashes
      simpa using hblobs
    obtain ⟨x, hx⟩ := List.exists_mem_of_ne_nil _ this
    exact List.ne_nil_of_mem (mem_setOfList.mpr hx)
  constructor
  · intro hfail
    have hex : existingOf emptyStore blobs = [] := by
      apply List.filter_eq_nil_iff.mpr
      intro a _
      simp [emptyStore]
    have hnew : newOf emptyStore blobs = allBlobHashes blobs := by
      apply List.filter_eq_self.mpr
      intro a _
      simp [emptyStore]
    have hup : (uploadResultOf emptyStore blobs batchSize resp).1 = [] := by
      unfold uploadResultOf
      rw [if_neg (by simpa [List.isEmpty_iff, hnew] using hall_ne)]
      unfold runBatches
      apply foldl_rb_all_fail
      intro i hi
      exact hfail i (List.mem_range.mp hi)
    unfold indexProject
    rw [if_neg (by simpa [List.isEmpty_iff] using hblobs),
        if_pos (by simp [hup, hex, List.isEmpty_iff, hnew, hall_ne])]
  · intro store hcommit
    have hcond : ¬ (!(newOf store blobs).isEmpty &&
        (uploadResultOf store blobs batchSize resp).1.isEmpty &&
        (existingOf store blobs).isEmpty) = true := by
      rcases hcommit with hex | hnew | ⟨i, hik, hok⟩
      · simp [List.isEmpty_iff, hex]
      · simp [List.isEmpty_iff, hnew]
      · have hlen : newOf store blobs ≠ [] := by
          intro hemp
          rw [hemp] at hik
          simp only [List.length_nil, ceilDiv_zero_any] at hik
          omega
        have hup : (uploadResultOf store blobs batchSize resp).1 ≠ [] := by
          unfold uploadResultOf
          rw [if_neg (by simpa [List.isEmpty_iff] using hlen)]
          exact foldl_rb_up_mem _ _ _ _ ([], []) i (List.mem_range.mpr hik) hok
        simp [List.isEmpty_iff, hup]
    unfold indexProject
    rw [if_neg (by simpa [List.isEmpty_iff] using hblobs), if_neg hcond]
    simp

/-- C10 (claim): a committed full reindex contains only files collected in
that run and only digests of this run's candidates: deleted or newly
excluded files, and digests referenced only by them, are gone. -/
theorem indexProject_fresh_commit :
    ∀ (batchSize : Nat) (blobs : List Blob) (store : IndexStore)
      (resp : Nat → Option (List String)) (res : IndexResult) (s : IndexStore),
      indexProject batchSize blobs store resp = (res, some s) →
      (∀ e ∈ s.file_map, ∃ b ∈ blobs, b.sourcePath = e.1) ∧
      (∀ f : String, (∀ b ∈ blobs, b.sourcePath ≠ f) → ¬ ∃ e ∈ s.file_map, e.1 = f) ∧
      (∀ d ∈ s.blob_names, d ∈ candidateHashes blobs) := by
  intro batchSize blobs store resp res s h
  have hs := indexProject_commit h
  subst hs
  have hkeys : ∀ e ∈ filteredMapOf store blobs batchSize resp, ∃ b ∈ blobs, b.sourcePath = e.1 := by
    intro e he
    obtain ⟨v, hv, _, _⟩ := mem_filteredMapOf.mp he
    obtain ⟨b, hb, hbp⟩ := buildFileMap_keys (e.1, v) hv
    exact ⟨b, hb, hbp⟩
  refine ⟨hkeys, ?_, ?_⟩
  · intro f hnone ⟨e, he, hef⟩
    obtain ⟨b, hb, hbp⟩ := hkeys e he
    exact hnone b hb (hbp.trans hef)
  · intro d hd
    exact availableOf_sub_candidates d hd

/-! ## Lemmas: the idempotent second run -/

theorem existingOf_empty (blobs : List Blob) : existingOf emptyStore blobs = [] := by
  apply List.filter_eq_nil_iff.mpr
  intro a _
  simp [emptyStore]

theorem newOf_emptyStore (blobs : List Blob) :
    newOf emptyStore blobs = allBlobHashes blobs := by
  apply List.filter_eq_self.mpr
  intro a _
  simp [emptyStore]

theorem allBlobHashes_ne_nil {blobs : List Blob} (h : blobs ≠ []) :
    allBlobHashes blobs ≠ [] := by
  have hc : candidateHashes blobs ≠ [] := by
    unfold candidateHashes
    simpa using h
  obtain ⟨x, hx⟩ := List.exists_mem_of_ne_nil _ hc
  exact List.ne_nil_of_mem (mem_setOfList.mpr hx)

theorem runBatches_nil (bs : Nat) (resp : Nat → Option (List String)) :
    runBatches [] bs resp = ([], []) := by
  unfold runBatches
  rw [List.length_nil, ceilDiv_zero_any]
  rfl

theorem existingOf_full {store : IndexStore} {blobs : List Blob}
    (h : ∀ x ∈ allBlobHashes blobs, x ∈ store.blob_names) :
    existingOf store blobs = allBlobHashes blobs := by
  apply List.filter_eq_self.mpr
  intro a ha
  simpa [contains_iff] using h a ha

theorem newOf_full {store : IndexStore} {blobs : List Blob}
    (h : ∀ x ∈ allBlobHashes blobs, x ∈ store.blob_names) :
    newOf store blobs = [] := by
  apply List.filter_eq_nil_iff.mpr
  intro a ha
  simpa [contains_iff] using h a ha

theorem filteredMapOf_all_available {store : IndexStore} {blobs : List Blob}
    {bs : Nat} {resp : Nat → Option (List String)}
    (h : ∀ x ∈ candidateHashes blobs, x ∈ availableOf store blobs bs resp) :
    filteredMapOf store blobs bs resp = buildFileMap blobs := by
  unfold filteredMapOf
  have hmap :
      (buildFileMap blobs).map
        (fun e => (e.1, e.2.filter (fun x => (availableOf store blobs bs resp).contains x))) =
      buildFileMap blobs := by
    conv_rhs => rw [show buildFileMap blobs = (buildFileMap blobs).map id from
      (List.map_id (buildFileMap blobs)).symm]
    apply List.map_congr_left
    intro e he
    have hfil : e.2.filter (fun x => (availableOf store blobs bs resp).contains x) = e.2 := by
      apply List.filter_eq_self.mpr
      intro a ha
      exact contains_iff.mpr (h a (buildFileMap_vals_sub e he a ha))
    show (e.1, e.2.filter (fun x => (availableOf store blobs bs resp).contains x)) = id e
    rw [hfil]
    rfl
  rw [hmap]
  apply List.filter_eq_self.mpr
  intro e he
  simpa [List.isEmpty_iff] using buildFileMap_vals_ne_nil e he

/-- C6 (amended): starting from an empty store with every upload batch
answered exactly as expected, the first full reindex commits the store
`⟨1, allBlobHashes blobs, buildFileMap blobs⟩` with status `success`; with
no filesystem change, the second run classifies every candidate digest as
existing, uploads zero blobs, and commits the byte-for-byte identical
store document. -/
theorem indexProject_idempotent :
    ∀ (batchSize : Nat) (blobs : List Blob) (resp1 resp2 : Nat → Option (List String)),
      1 ≤ batchSize → blobs ≠ [] →
      (∀ i, i < ceilDiv (allBlobHashes blobs).length batchSize →
        resp1 i = some (((allBlobHashes blobs).drop (i * batchSize)).take batchSize)) →
      (indexProject batchSize blobs emptyStore resp1).2 =
          some ⟨1, allBlobHashes blobs, buildFileMap blobs⟩ ∧
      (indexProject batchSize blobs emptyStore resp1).1.status = .success ∧
      newOf ⟨1, allBlobHashes blobs, buildFileMap blobs⟩ blobs = [] ∧
      (indexProject batchSize blobs ⟨1, allBlobHashes blobs, buildFileMap blobs⟩ resp2).2 =
          some ⟨1, allBlobHashes blobs, buildFileMap blobs⟩ ∧
      (indexProject batchSize blobs ⟨1, allBlobHashes blobs, buildFileMap blobs⟩ resp2).1.status
          = .success ∧
      (indexProject batchSize blobs ⟨1, allBlobHashes blobs, buildFileMap blobs⟩ resp2).1.stats
          = some ((allBlobHashes blobs).length, (allBlobHashes blobs).length, 0) := by
  intro batchSize blobs resp1 resp2 hbs hblobs hresp
  have hnodup := setOfList_nodup (candidateHashes blobs)
  have hall_ne := allBlobHashes_ne_nil hblobs
  -- first run
  have hrb1 : runBatches (newOf emptyStore blobs) batchSize resp1 =
      (allBlobHashes blobs, []) := by
    rw [newOf_emptyStore]
    exact runBatches_perfect hbs hresp
  have hup1 : uploadResultOf emptyStore blobs batchSize resp1 = (allBlobHashes blobs, []) := by
    unfold uploadResultOf
    rw [if_neg (by simpa [List.isEmpty_iff, newOf_emptyStore] using hall_ne), hrb1]
  have hav1 : availableOf emptyStore blobs batchSize resp1 = allBlobHashes blobs := by
    unfold availableOf
    rw [existingOf_empty, hrb1]
    simpa using setOfList_eq_self hnodup
  have hfm1 : filteredMapOf emptyStore blobs batchSize resp1 = buildFileMap blobs := by
    apply filteredMapOf_all_available
    intro x hx
    rw [hav1]
    exact mem_setOfList.mpr hx
  have hcond1 : ¬ (!(newOf emptyStore blobs).isEmpty &&
      (uploadResultOf emptyStore blobs batchSize resp1).1.isEmpty &&
      (existingOf emptyStore blobs).isEmpty) = true := by
    rw [hup1]
    simp [List.isEmpty_iff, hall_ne]
  -- second run store
  have hmem2 : ∀ x ∈ allBlobHashes blobs,
      x ∈ (⟨1, allBlobHashes blobs, buildFileMap blobs⟩ : IndexStore).blob_names := by
    intro x hx
    exact hx
  have hex2 := existingOf_full hmem2
  have hnew2 := newOf_full hmem2
  have hup2 : uploadResultOf ⟨1, allBlobHashes blobs, buildFileMap blobs⟩ blobs batchSize resp2
      = ([], []) := by
    unfold uploadResultOf
    rw [if_pos (by simp [hnew2])]
  have hav2 : availableOf ⟨1, allBlobHashes blobs, buildFileMap blobs⟩ blobs batchSize resp2
      = allBlobHashes blobs := by
    unfold availableOf
    rw [hex2, hnew2, runBatches_nil]
    simpa using setOfList_eq_self hnodup
  have hfm2 : filteredMapOf ⟨1, allBlobHashes blobs, buildFileMap blobs⟩ blobs batchSize resp2
      = buildFileMap blobs := by
    apply filteredMapOf_all_available
    intro x hx
    rw [hav2]
    exact mem_setOfList.mpr hx
  have hcond2 : ¬ (!(newOf (⟨1, allBlobHashes blobs, buildFileMap blobs⟩ : IndexStore) blobs).isEmpty &&
      (uploadResultOf ⟨1, allBlobHashes blobs, buildFileMap blobs⟩ blobs batchSize resp2).1.isEmpty &&
      (existingOf (⟨1, allBlobHashes blobs, buildFileMap blobs⟩ : IndexStore) blobs).isEmpty) = true := by
    rw [hnew2]
    simp
  have hbne : ¬ blobs.isEmpty = true := by simpa [List.isEmpty_iff] using hblobs
  refine ⟨?_, ?_, hnew2, ?_, ?_, ?_⟩
  · unfold indexProject
    rw [if_neg hbne, if_neg hcond1]
    simp [hav1, hfm1]
  · unfold indexProject
    rw [if_neg hbne, if_neg hcond1]
    simp [hup1]
  · unfold indexProject
    rw [if_neg hbne, if_neg hcond2]
    simp [hav2, hfm2]
  · unfold indexProject
    rw [if_neg hbne, if_neg hcond2]
    simp [hup2]
  · unfold indexProject
    rw [if_neg hbne, if_neg hcond2]
    simp [hav2, hex2, hup2]

/-! ## Retry Policy (`retryRequest`, `extension.ts` 821–884)

An attempt's failure carries the axios error surface the code inspects:
`error.code`, `error.response?.status` and `error.message`.  The function
under test is modelled by the per-attempt outcome map `fn`; the outcome
records the thrown-or-returned result, how many times `fn` was invoked
and the performed backoff delays in order. -/

structure AxErr where
  code : Option String
  status : Option Nat
  message : String
deriving DecidableEq, Repr

inductive Attempt (T : Type) where
  | ok (v : T)
  | fail (e : AxErr)
deriving DecidableEq, Repr

instance exceptDecEq {ε α : Type} [DecidableEq ε] [DecidableEq α] :
    DecidableEq (Except ε α) := fun a b =>
  match a, b with
  | .error x, .error y =>
    if h : x = y then .isTrue (by rw [h]) else .isFalse (by intro hc; cases hc; exact h rfl)
  | .error _, .ok _ => .isFalse (by intro hc; cases hc)
  | .ok _, .error _ => .isFalse (by intro hc; cases hc)
  | .ok x, .ok y =>
    if h : x = y then .isTrue (by rw [h]) else .isFalse (by intro hc; cases hc; exact h rfl)

structure RetryOutcome (T : Type) where
  result : Except String T
  calls : Nat
  delays : List Nat
deriving DecidableEq, Repr

def msg401 : String := "Token 已失效或无效，请在 VSCode 设置中更新 token"
def msg403 : String := "访问被拒绝，Token 可能已被官方禁用，请联系服务提供商"
def msgTls : String := "SSL 证书验证失败，请检查 baseUrl 配置是否正确，或联系服务提供商"
def msgConnRefused : String := "无法连接到服务器，请检查网络或服务地址"
def msgTimedOut : String := "连接超时，请检查网络状况"
def msgDnsFail : String := "无法解析服务器地址，请检查 baseUrl 配置"

/-- `haystack.includes(needle)` on character lists. -/
def hasSubAux (needle : List Char) : List Char → Bool
  | [] => needle.isEmpty
  | c :: t => needle.isPrefixOf (c :: t) || hasSubAux needle t

/-- JS `String.prototype.includes`. -/
def hasSub (s sub : String) : Bool :=
  hasSubAux sub.data s.data

/-- The TLS/certificate detection (`extension.ts` 848–852). -/
def isTlsErr (e : AxErr) : Bool :=
  e.code == some "UNABLE_TO_VERIFY_LEAF_SIGNATURE" ||
  e.code == some "CERT_HAS_EXPIRED" ||
  e.code == some "ERR_TLS_CERT_ALTNAME_INVALID" ||
  hasSub e.message "certificate" ||
  hasSub e.message "altnames"

/-- The retryable classification (`extension.ts` 857–861). -/
def isRetryableErr (e : AxErr) : Bool :=
  e.code == some "ECONNREFUSED" ||
  e.code == some "ETIMEDOUT" ||
  e.code == some "ENOTFOUND" ||
  (match e.status with
   | some s => decide (500 ≤ s)
   | none => false)

/-- The friendlier network message (`extension.ts` 865–872): translated
for the three network codes, otherwise the error's own message. -/
def friendlyMessage (e : AxErr) : String :=
  if e.code == some "ECONNREFUSED" then msgConnRefused
  else if e.code == some "ETIMEDOUT" then msgTimedOut
  else if e.code == some "ENOTFOUND" then msgDnsFail
  else e.message

/-- The retry loop body; `fuel` is `maxRetries - attempt`, so the loop
shape `for (attempt = 0; attempt < maxRetries; attempt++)` is structural
recursion.  Falling out of the loop (only possible when `maxRetries = 0`)
throws `lastError || 'All retries failed'` with `lastError` unset. -/
def retryLoop {T : Type} (fn : Nat → Attempt T) (maxRetries baseDelay : Nat) :
    Nat → Nat → RetryOutcome T
  | _, 0 => ⟨.error "All retries failed", 0, []⟩
  | attempt, fuel + 1 =>
    match fn attempt with
    | .ok v => ⟨.ok v, 1, []⟩
    | .fail e =>
      if e.status == some 401 then ⟨.error msg401, 1, []⟩
      else if e.status == some 403 then ⟨.error msg403, 1, []⟩
      else if isTlsErr e then ⟨.error msgTls, 1, []⟩
      else if !isRetryableErr e || attempt == maxRetries - 1 then
        ⟨.error (friendlyMessage e), 1, []⟩
      else
        let rest := retryLoop fn maxRetries baseDelay (attempt + 1) fuel
        ⟨rest.result, rest.calls + 1, baseDelay * 2 ^ attempt :: rest.delays⟩

/-- `retryRequest` (`extension.ts` 821–884), modelled over the per-attempt
outcomes of the wrapped request. -/
def retryRequest {T : Type} (fn : Nat → Attempt T) (maxRetries baseDelay : Nat) :
    RetryOutcome T :=
  retryLoop fn maxRetries baseDelay 0 maxRetries

/-! ## Ignore Filter (`matchPattern` / `shouldExclude`, `extension.ts` 726–772) -/

inductive RAtom where
  | lit (c : Char)
  | dot
  | star
deriving DecidableEq, Repr

/-- The regex atom each pattern character becomes after
`pattern.replace(/\*/g, '.*').replace(/\?/g, '.')`: `*` becomes `.*`,
`?` becomes `.`, and a literal `.` stays the regex any-character
metacharacter — the code escapes nothing.  The JavaScript `RegExp`
engine is external; this embedding is exact for patterns whose
characters are regex-literal or among `*`, `?`, `.` (other regex
metacharacters are outside the model). -/
def compileList (p : List Char) : List RAtom :=
  p.map fun c =>
    if c = '*' then .star
    else if c = '?' then .dot
    else if c = '.' then .dot
    else .lit c

/-- Anchored matching of the compiled atoms
(`new RegExp('^' + regexPattern + '$').test(str)`), standard backtracking
semantics; the fuel makes the recursion structural, and
`patLen + strLen + 1` steps always suffice since every step shrinks
`ps.length + xs.length`. -/
def rmatchF : Nat → List RAtom → List Char → Bool
  | 0, _, _ => false
  | fuel + 1, ps, xs =>
    match ps with
    | [] => xs.isEmpty
    | .star :: ps' =>
      (match xs with
       | [] => rmatchF fuel ps' []
       | _ :: xs' => rmatchF fuel ps' xs || rmatchF fuel (.star :: ps') xs')
    | .dot :: ps' =>
      (match xs with
       | [] => false
       | _ :: xs' => rmatchF fuel ps' xs')
    | .lit c :: ps' =>
      (match xs with
       | [] => false
       | x :: xs' => c == x && rmatchF fuel ps' xs')

/-- `matchPattern` (`extension.ts` 768–772). -/
def matchPattern (str pattern : String) : Bool :=
  rmatchF (pattern.length + str.length + 1) (compileList pattern.data) str.data

/-- JS `pathStr.split('/')` (single-character separator). -/
def splitSegsAux (acc : List Char) : List Char → List (List Char)
  | [] => [acc.reverse]
  | c :: rest =>
    if c = '/' then acc.reverse :: splitSegsAux [] rest
    else splitSegsAux (c :: acc) rest

def splitSegs (s : String) : List String :=
  (splitSegsAux [] s.data).map String.mk

/-- `shouldExclude` (`extension.ts` 726–758) on the already-computed
forward-slash relative path: the gitignore verdict (the external `ignore`
library, fed `path + '/'` for directories) is an input; then any
configured pattern matching any path segment or the whole relative path
excludes. -/
def shouldExclude (pathStr : String) (gitignoreIgnores : Option (String → Bool))
    (isDir : Bool) (excludePatterns : List String) : Bool :=
  (match gitignoreIgnores with
   | some ign => ign (if isDir then pathStr ++ "/" else pathStr)
   | none => false) ||
  excludePatterns.any fun pattern =>
    (splitSegs pathStr).any (fun part => matchPattern part pattern) ||
    matchPattern pathStr pattern

/-- Modelled from the spec: the claimed glob semantics, in which `*`
matches any run of characters, `?` matches exactly one character, and
every other character (a literal `.` included) matches only itself, the
match anchored at both ends. -/
def specGlobF : Nat → List Char → List Char → Bool
  | 0, _, _ => false
  | fuel + 1, ps, xs =>
    match ps with
    | [] => xs.isEmpty
    | c :: ps' =>
      if c = '*' then
        (match xs with
         | [] => specGlobF fuel ps' []
         | _ :: xs' => specGlobF fuel ps' xs || specGlobF fuel (c :: ps') xs')
      else
        match xs with
        | [] => false
        | x :: xs' => (if c = '?' then true else c == x) && specGlobF fuel ps' xs'

/-- Modelled from the spec: anchored glob match of a pattern against a
string. -/
def specGlobMatch (pattern str : String) : Bool :=
  specGlobF (pattern.length + str.length + 1) pattern.data str.data

/-- Characters that are regex-literal: everything except the
metacharacters the untranslated pattern could leak into the regex. -/
def patOk (pattern : String) : Bool :=
  pattern.data.all fun c =>
    !(['\\', '(', ')', '[', ']', '\x7b', '\x7d', '+', '|', '^', '$', '.'].contains c)

theorem rmatchF_eq_specGlobF :
    ∀ (fuel : Nat) (p xs : List Char), (∀ c ∈ p, c ≠ '.') →
      rmatchF fuel (compileList p) xs = specGlobF fuel p xs := by
  intro fuel
  induction fuel with
  | zero => intro p xs _; rfl
  | succ fuel ih =>
    intro p xs hp
    cases p with
    | nil => rfl
    | cons c p' =>
      have hcdot : c ≠ '.' := hp c (by simp)
      have hp' : ∀ a ∈ p', a ≠ '.' := fun a ha => hp a (by simp [ha])
      by_cases hstar : c = '*'
      · subst hstar
        have hstarp : ∀ a ∈ ('*' :: p' : List Char), a ≠ '.' := by
          intro a ha
          rcases List.mem_cons.mp ha with rfl | ha'
          · decide
          · exact hp' a ha'
        have h1 : compileList ('*' :: p') = RAtom.star :: compileList p' := by
          simp [compileList]
        cases xs with
        | nil =>
          rw [show rmatchF (fuel + 1) (compileList ('*' :: p')) [] =
                rmatchF fuel (compileList p') [] from by rw [h1]; rfl,
              show specGlobF (fuel + 1) ('*' :: p') [] = specGlobF fuel p' [] from rfl]
          exact ih p' [] hp'
        | cons x xs' =>
          rw [show rmatchF (fuel + 1) (compileList ('*' :: p')) (x :: xs') =
                (rmatchF fuel (compileList p') (x :: xs') ||
                 rmatchF fuel (compileList ('*' :: p')) xs') from by rw [h1]; rfl,
              show specGlobF (fuel + 1) ('*' :: p') (x :: xs') =
                (specGlobF fuel p' (x :: xs') || specGlobF fuel ('*' :: p') xs') from rfl]
          rw [ih p' (x :: xs') hp', ih ('*' :: p') xs' hstarp]
      · by_cases hq : c = '?'
        · subst hq
          have h1 : compileList ('?' :: p') = RAtom.dot :: compileList p' := by
            simp [compileList]
          cases xs with
          | nil =>
            rw [show rmatchF (fuel + 1) (compileList ('?' :: p')) [] = false from by rw [h1]; rfl,
                show specGlobF (fuel + 1) ('?' :: p') [] = false from rfl]
          | cons x xs' =>
            rw [show rmatchF (fuel + 1) (compileList ('?' :: p')) (x :: xs') =
                  rmatchF fuel (compileList p') xs' from by rw [h1]; rfl,
                show specGlobF (fuel + 1) ('?' :: p') (x :: xs') =
                  (true && specGlobF fuel p' xs') from rfl,
                Bool.true_and]
            exact ih p' xs' hp'
        · have h1 : compileList (c :: p') = RAtom.lit c :: compileList p' := by
            simp [compileList, hstar, hq, hcdot]
          cases xs with
          | nil =>
            rw [show rmatchF (fuel + 1) (compileList (c :: p')) [] = false from by rw [h1]; rfl,
                show specGlobF (fuel + 1) (c :: p') [] = false from by
                  simp only [specGlobF]
                  rw [if_neg hstar]]
          | cons x xs' =>
            rw [show rmatchF (fuel + 1) (compileList (c :: p')) (x :: xs') =
                  (c == x && rmatchF fuel (compileList p') xs') from by rw [h1]; rfl,
                show specGlobF (fuel + 1) (c :: p') (x :: xs') =
                  ((if c = '?' then true else c == x) && specGlobF fuel p' xs') from by
                  simp only [specGlobF]
                  rw [if_neg hstar]]
            rw [if_neg hq, ih p' xs' hp']

theorem matchPattern_eq_spec {s p : String} (hok : patOk p = true) :
    matchPattern s p = specGlobMatch p s := by
  unfold matchPattern specGlobMatch
  apply rmatchF_eq_specGlobF
  intro c hc
  have hall := List.all_eq_true.mp hok c hc
  intro hdot
  subst hdot
  simp at hall

/-- C9 (amended): for exclude patterns containing no regex metacharacter
other than the wildcards (`.` in particular leaks through as the regex
any-character), the filter excludes a path precisely when some segment or
the whole path matches under the claimed glob semantics. -/
theorem shouldExclude_glob_spec :
    ∀ (pathStr : String) (patterns : List String),
      (∀ p ∈ patterns, patOk p = true) →
      (shouldExclude pathStr none false patterns = true ↔
        ∃ p ∈ patterns,
          (∃ seg ∈ splitSegs pathStr, specGlobMatch p seg = true) ∨
          specGlobMatch p pathStr = true) := by
  intro pathStr patterns hok
  unfold shouldExclude
  rw [Bool.or_eq_true, List.any_eq_true]
  constructor
  · rintro (hfalse | ⟨p, hp, hmat⟩)
    · simp at hfalse
    · refine ⟨p, hp, ?_⟩
      rw [Bool.or_eq_true, List.any_eq_true] at hmat
      rcases hmat with ⟨seg, hseg, hm⟩ | hm
      · exact Or.inl ⟨seg, hseg, by rw [← matchPattern_eq_spec (hok p hp)]; exact hm⟩
      · exact Or.inr (by rw [← matchPattern_eq_spec (hok p hp)]; exact hm)
  · rintro ⟨p, hp, hmat⟩
    refine Or.inr ⟨p, hp, ?_⟩
    rw [Bool.or_eq_true, List.any_eq_true]
    rcases hmat with ⟨seg, hseg, hm⟩ | hm
    · exact Or.inl ⟨seg, hseg, by rw [matchPattern_eq_spec (hok p hp)]; exact hm⟩
    · exact Or.inr (by rw [matchPattern_eq_spec (hok p hp)]; exact hm)

/-! ## Lemmas: the retry loop -/

theorem retryLoop_all_retryable {T : Type} (fn : Nat → Attempt T)
    (maxRetries baseDelay : Nat) (errs : Nat → AxErr)
    (hfn : ∀ k, k < maxRetries → fn k = .fail (errs k))
    (hre : ∀ k, k < maxRetries →
      isRetryableErr (errs k) = true ∧ (errs k).status ≠ some 401 ∧
      (errs k).status ≠ some 403 ∧ isTlsErr (errs k) = false) :
    ∀ (fuel attempt : Nat), 1 ≤ fuel → attempt + fuel = maxRetries →
      retryLoop fn maxRetries baseDelay attempt fuel =
        ⟨.error (friendlyMessage (errs (maxRetries - 1))), fuel,
         (List.range' attempt (fuel - 1)).map (fun k => baseDelay * 2 ^ k)⟩ := by
  intro fuel
  induction fuel with
  | zero => intro attempt h1 _; omega
  | succ fuel ih =>
    intro attempt _ hsum
    have hatt : attempt < maxRetries := by omega
    obtain ⟨hret, h401, h403, htls⟩ := hre attempt hatt
    rw [show retryLoop fn maxRetries baseDelay attempt (fuel + 1) =
          (match fn attempt with
           | .ok v => ⟨.ok v, 1, []⟩
           | .fail e =>
             if e.status == some 401 then ⟨.error msg401, 1, []⟩
             else if e.status == some 403 then ⟨.error msg403, 1, []⟩
             else if isTlsErr e then ⟨.error msgTls, 1, []⟩
             else if !isRetryableErr e || attempt == maxRetries - 1 then
               ⟨.error (friendlyMessage e), 1, []⟩
             else
               let rest := retryLoop fn maxRetries baseDelay (attempt + 1) fuel
               ⟨rest.result, rest.calls + 1, baseDelay * 2 ^ attempt :: rest.delays⟩) from rfl,
        hfn attempt hatt]
    dsimp only
    rw [if_neg (by simpa using h401), if_neg (by simpa using h403),
        if_neg (by simp [htls])]
    rcases Nat.eq_zero_or_pos fuel with hf0 | hfpos
    · subst hf0
      have hlast : attempt = maxRetries - 1 := by omega
      rw [if_pos (by simp [hlast]), hlast]
      rfl
    · have hnotlast : ¬ attempt = maxRetries - 1 := by omega
      rw [if_neg (by simp [hret, hnotlast])]
      rw [ih (attempt + 1) (by omega) (by omega)]
      have hfs : fuel + 1 - 1 = (fuel - 1) + 1 := by omega
      rw [hfs, List.range'_succ, List.map_cons]

/-- C8 (amended): 401, 403 and TLS/certificate failures are rethrown
immediately with translated messages and no further invocation of the
request; the retryable classes (the three network codes and 5xx statuses)
are retried, the delay after failed attempt `k` (0-indexed) being
`baseDelay * 2^k`, and after `maxRetries` failed attempts the last error
is rethrown — translated for connection-refused/timeout/DNS codes, but
with its original message for a 5xx server error; any other failure is
rethrown after the first attempt with its original message. -/
theorem retryRequest_spec {T : Type} :
    ∀ (fn : Nat → Attempt T) (maxRetries baseDelay : Nat), 1 ≤ maxRetries →
      (∀ e, fn 0 = .fail e → e.status = some 401 →
        retryRequest fn maxRetries baseDelay = ⟨.error msg401, 1, []⟩) ∧
      (∀ e, fn 0 = .fail e → e.status ≠ some 401 → e.status = some 403 →
        retryRequest fn maxRetries baseDelay = ⟨.error msg403, 1, []⟩) ∧
      (∀ e, fn 0 = .fail e → e.status ≠ some 401 → e.status ≠ some 403 →
        isTlsErr e = true →
        retryRequest fn maxRetries baseDelay = ⟨.error msgTls, 1, []⟩) ∧
      (∀ errs : Nat → AxErr,
        (∀ k, k < maxRetries → fn k = .fail (errs k)) →
        (∀ k, k < maxRetries → isRetryableErr (errs k) = true ∧
          (errs k).status ≠ some 401 ∧ (errs k).status ≠ some 403 ∧
          isTlsErr (errs k) = false) →
        retryRequest fn maxRetries baseDelay =
          ⟨.error (friendlyMessage (errs (maxRetries - 1))), maxRetries,
           (List.range (maxRetries - 1)).map (fun k => baseDelay * 2 ^ k)⟩) ∧
      (∀ e, fn 0 = .fail e → isRetryableErr e = false →
        e.status ≠ some 401 → e.status ≠ some 403 → isTlsErr e = false →
        retryRequest fn maxRetries baseDelay = ⟨.error e.message, 1, []⟩) ∧
      (∀ e : AxErr, e.code = some "ECONNREFUSED" → friendlyMessage e = msgConnRefused) ∧
      (∀ e : AxErr, e.code ≠ some "ECONNREFUSED" → e.code = some "ETIMEDOUT" →
        friendlyMessage e = msgTimedOut) ∧
      (∀ e : AxErr, e.code ≠ some "ECONNREFUSED" → e.code ≠ some "ETIMEDOUT" →
        e.code = some "ENOTFOUND" → friendlyMessage e = msgDnsFail) ∧
      (∀ e : AxErr, e.code ≠ some "ECONNREFUSED" → e.code ≠ some "ETIMEDOUT" →
        e.code ≠ some "ENOTFOUND" → friendlyMessage e = e.message) := by
  intro fn maxRetries baseDelay hmr
  have hstep : ∀ (rest : Unit → RetryOutcome T),
      retryRequest fn maxRetries baseDelay =
        retryLoop fn maxRetries baseDelay 0 maxRetries := fun _ => rfl
  obtain ⟨m', hm'⟩ : ∃ m', maxRetries = m' + 1 := ⟨maxRetries - 1, by omega⟩
  have hunfold : retryRequest fn maxRetries baseDelay =
      (match fn 0 with
       | .ok v => ⟨.ok v, 1, []⟩
       | .fail e =>
         if e.status == some 401 then ⟨.error msg401, 1, []⟩
         else if e.status == some 403 then ⟨.error msg403, 1, []⟩
         else if isTlsErr e then ⟨.error msgTls, 1, []⟩
         else if !isRetryableErr e || 0 == maxRetries - 1 then
           ⟨.error (friendlyMessage e), 1, []⟩
         else
           let rest := retryLoop fn maxRetries baseDelay 1 m'
           ⟨rest.result, rest.calls + 1, baseDelay * 2 ^ 0 :: rest.delays⟩) := by
    rw [show retryRequest fn maxRetries baseDelay =
          retryLoop fn maxRetries baseDelay 0 maxRetries from rfl, hm']
    rfl
  refine ⟨?_, ?_, ?_, ?_, ?_, ?_, ?_, ?_, ?_⟩
  · intro e hfe h401
    rw [hunfold, hfe]
    dsimp only
    rw [if_pos (by simp [h401])]
  · intro e hfe h401 h403
    rw [hunfold, hfe]
    dsimp only
    rw [if_neg (by simpa using h401), if_pos (by simp [h403])]
  · intro e hfe h401 h403 htls
    rw [hunfold, hfe]
    dsimp only
    rw [if_neg (by simpa using h401), if_neg (by simpa using h403), if_pos htls]
  · intro errs hfn hre
    rw [show retryRequest fn maxRetries baseDelay =
          retryLoop fn maxRetries baseDelay 0 maxRetries from rfl]
    rw [retryLoop_all_retryable fn maxRetries baseDelay errs hfn hre maxRetries 0 hmr
        (by omega)]
    rw [show List.range' 0 (maxRetries - 1) = List.range (maxRetries - 1) from
      (List.range_eq_range' (maxRetries - 1)).symm]
  · intro e hfe hret h401 h403 htls
    rw [hunfold, hfe]
    dsimp only
    rw [if_neg (by simpa using h401), if_neg (by simpa using h403), if_neg (by simp [htls]),
        if_pos (by simp [hret])]
    have : friendlyMessage e = e.message := by
      unfold friendlyMessage
      have hcodes : e.code ≠ some "ECONNREFUSED" ∧ e.code ≠ some "ETIMEDOUT" ∧
          e.code ≠ some "ENOTFOUND" := by
        unfold isRetryableErr at hret
        simp only [Bool.or_eq_false_iff, beq_eq_false_iff_ne] at hret
        exact ⟨hret.1.1.1, hret.1.1.2, hret.1.2⟩
      rw [if_neg (by simpa using hcodes.1), if_neg (by simpa using hcodes.2.1),
          if_neg (by simpa using hcodes.2.2)]
    rw [this]
  · intro e hc
    unfold friendlyMessage
    rw [if_pos (by simp [hc])]
  · intro e hc1 hc2
    unfold friendlyMessage
    rw [if_neg (by simpa using hc1), if_pos (by simp [hc2])]
  · intro e hc1 hc2 hc3
    unfold friendlyMessage
    rw [if_neg (by simpa using hc1), if_neg (by simpa using hc2), if_pos (by simp [hc3])]
  · intro e hc1 hc2 hc3
    unfold friendlyMessage
    rw [if_neg (by simpa using hc1), if_neg (by simpa using hc2),
        if_neg (by simpa using hc3)]

/-! ## Lemmas: the digest's shape -/

theorem wordBytes_lt (w : Nat) : ∀ b ∈ wordBytes w, b < 256 := by
  intro b hb
  simp only [wordBytes, List.mem_cons, List.not_mem_nil, or_false] at hb
  rcases hb with rfl | rfl | rfl | rfl <;> exact Nat.mod_lt _ (by omega)

theorem sha256bytes_length (msg : List Nat) : (sha256bytes msg).length = 32 := by
  unfold sha256bytes wordBytes
  simp

theorem sha256bytes_lt (msg : List Nat) : ∀ b ∈ sha256bytes msg, b < 256 := by
  intro b hb
  unfold sha256bytes at hb
  obtain ⟨w, _, hw⟩ := List.mem_flatMap.mp hb
  exact wordBytes_lt w b hw

theorem flatMap_pair_length {α β : Type} (f g : α → β) (l : List α) :
    (l.flatMap (fun b => [f b, g b])).length = 2 * l.length := by
  induction l with
  | nil => rfl
  | cons x xs ih =>
    simp only [List.flatMap_cons, List.length_append, ih, List.length_cons,
      List.length_nil]
    omega

theorem bytesToHex_length (bs : List Nat) : (bytesToHex bs).length = 2 * bs.length := by
  unfold bytesToHex
  show (bs.flatMap (fun b => [hexDigit (b / 16), hexDigit (b % 16)])).length = 2 * bs.length
  exact flatMap_pair_length _ _ bs

/-- C7 (amended): `calculateBlobName` returns 64 lowercase hexadecimal
characters — the SHA-256 of the UTF-8 path bytes followed by the UTF-8
content bytes with no separator — and the digest is a function of that
concatenation alone, so two pairs with equal concatenated bytes (even
with different path/content boundaries) share a digest by construction. -/
theorem calculateBlobName_spec :
    ∀ p c : String,
      (calculateBlobName p c).length = 64 ∧
      (∀ ch ∈ (calculateBlobName p c).data, ch ∈ "0123456789abcdef".data) ∧
      (∀ p' c' : String,
        utf8Bytes p ++ utf8Bytes c = utf8Bytes p' ++ utf8Bytes c' →
        calculateBlobName p c = calculateBlobName p' c') := by
  intro p c
  refine ⟨?_, ?_, ?_⟩
  · unfold calculateBlobName sha256hex
    rw [bytesToHex_length, sha256bytes_length]
  · intro ch hch
    have hch' : ch ∈ (sha256bytes (utf8Bytes p ++ utf8Bytes c)).flatMap
        (fun b => [hexDigit (b / 16), hexDigit (b % 16)]) := hch
    obtain ⟨b, hb, hmem⟩ := List.mem_flatMap.mp hch'
    have hblt := sha256bytes_lt _ b hb
    have hdig : ∀ n, n < 16 → hexDigit n ∈ "0123456789abcdef".data := by decide
    simp only [List.mem_cons, List.not_mem_nil, or_false] at hmem
    rcases hmem with rfl | rfl
    · exact hdig _ ((Nat.div_lt_iff_lt_mul (by omega)).mpr (by omega))
    · exact hdig _ (Nat.mod_lt _ (by omega))
  · intro p' c' heq
    unfold calculateBlobName
    rw [heq]

/-! ## Concrete runs: counterexamples and witnesses -/

def hAx : String := calculateBlobName "a.py" "x"
def hBy : String := calculateBlobName "b.py" "y"

/-- A remote that answers every batch with `a.py`'s digest. -/
def respOkA : Nat → Option (List String) := fun _ => some [hAx]

/-- C7 (counterexample): the distinct pairs `("ab","c")` and `("a","bc")`
have equal concatenated UTF-8 bytes, hence equal digests — the claimed
pairwise digest distinctness fails by construction, without any SHA-256
collision. -/
theorem calculateBlobName_collision :
    (("ab", "c") ≠ (("a", "bc") : String × String)) ∧
    calculateBlobName "ab" "c" = calculateBlobName "a" "bc" := by
  refine ⟨by decide, ?_⟩
  unfold calculateBlobName
  exact congrArg sha256hex (by decide)

theorem calculateBlobName_spec_witness :
    calculateBlobName "ab" "c" = calculateBlobName "a" "bc" :=
  (calculateBlobName_spec "ab" "c").2.2 "a" "bc" (by decide)

theorem splitFileContent_spec_witness :
    splitFileContent 800 "a.py" "x\ny" = [⟨"a.py", "x\ny", "a.py"⟩] ∧
    String.mk (((splitFileContent 2 "b.py" "1\n2\n3\n").map
      (fun b => b.content.data)).flatten) = "1\n2\n3\n" :=
  ⟨(splitFileContent_spec 800 "a.py" "x\ny" (by decide)).1 (by decide),
   (splitFileContent_spec 2 "b.py" "1\n2\n3\n" (by decide)).2.2⟩

/-- C9 (counterexample): the unescaped `.` of pattern `a.c` reaches the
regex as the any-character metacharacter: path `abc` is excluded although
under the claimed glob semantics (every non-wildcard character matching
only itself) neither any segment nor the whole path matches. -/
theorem shouldExclude_dot_leak :
    shouldExclude "abc" none false ["a.c"] = true ∧
    ((splitSegs "abc").any fun seg => specGlobMatch "a.c" seg) = false ∧
    specGlobMatch "a.c" "abc" = false := by
  refine ⟨by decide, by decide, by decide⟩

theorem shouldExclude_glob_spec_witness :
    (∀ p ∈ ["node_modules"], patOk p = true) ∧
    (shouldExclude "src/node_modules/a" none false ["node_modules"] = true ↔
      ∃ p ∈ ["node_modules"],
        (∃ seg ∈ splitSegs "src/node_modules/a", specGlobMatch p seg = true) ∨
        specGlobMatch p "src/node_modules/a" = true) :=
  ⟨by decide, shouldExclude_glob_spec "src/node_modules/a" ["node_modules"] (by decide)⟩

def fn500 : Nat → Attempt Unit := fun _ => .fail ⟨none, some 500, "Internal Server Error"⟩

/-- C8 (counterexample): three straight 5xx failures exhaust the retries
and the final rethrow carries the error's original message, not one of
the translated network-failure messages. -/
theorem retryRequest_5xx_original_message :
    retryRequest fn500 3 1000 = ⟨.error "Internal Server Error", 3, [1000, 2000]⟩ ∧
    ("Internal Server Error" ∉
      [msgConnRefused, msgTimedOut, msgDnsFail, msg401, msg403, msgTls]) := by
  refine ⟨by decide, by decide⟩

def eConn : AxErr := ⟨some "ECONNREFUSED", none, "connect ECONNREFUSED 127.0.0.1:443"⟩

def fnConn : Nat → Attempt Unit := fun _ => .fail eConn

theorem retryRequest_spec_witness :
    retryRequest fnConn 3 1000 =
      ⟨.error (friendlyMessage eConn), 3, (List.range 2).map (fun k => 1000 * 2 ^ k)⟩ :=
  (retryRequest_spec fnConn 3 1000 (by omega)).2.2.2.1 (fun _ => eConn)
    (fun _ _ => rfl)
    (fun _ _ =>
      (by decide :
        isRetryableErr eConn = true ∧ eConn.status ≠ some 401 ∧
        eConn.status ≠ some 403 ∧ isTlsErr eConn = false))

theorem indexFile_batch_failure_witness :
    indexFile 800 1 "a.py" (.present "x") emptyStore (fun _ => none) =
      (⟨.error, "File indexing failed", none⟩, none) :=
  indexFile_batch_failure 800 1 "a.py" "x" emptyStore (fun _ => none)
    (by decide) ⟨0, by decide, rfl⟩

theorem indexProject_first_run_witness :
    (indexProject 1 [⟨"a.py", "x", "a.py"⟩] emptyStore (fun _ => none) =
      (⟨.error, "All batches failed on first indexing", none⟩, none)) ∧
    (indexProject 1 [⟨"a.py", "x", "a.py"⟩] emptyStore respOkA).2.isSome :=
  ⟨(indexProject_first_run 1 [⟨"a.py", "x", "a.py"⟩] (fun _ => none) (by decide)).1
      (fun _ _ => rfl),
   (indexProject_first_run 1 [⟨"a.py", "x", "a.py"⟩] respOkA (by decide)).2 emptyStore
      (Or.inr (Or.inr ⟨0, by decide, by decide⟩))⟩

def c1run1 : IndexResult × Option IndexStore :=
  indexProject 1 [⟨"a.py", "x", "a.py"⟩] emptyStore respOkA
def c1s1 : IndexStore := (c1run1.2).getD emptyStore
def storeW : IndexStore := ⟨1, ["h1", "h2"], [("a.py", ["h1"]), ("b.py", ["h2"])]⟩
def c1run2 : IndexResult × Option IndexStore :=
  indexFile 800 1 "a.py" FileCheck.notFound storeW (fun _ => none)
def c1s2 : IndexStore := (c1run2.2).getD emptyStore
def c1run3 : IndexResult × Option IndexStore :=
  removeFileFromIndex "b.py" storeW "File not found"
def c1s3 : IndexStore := (c1run3.2).getD emptyStore

theorem commit_blobNames_invariant_witness :
    storeInv c1s1 ∧ storeInv c1s2 ∧ storeInv c1s3 :=
  ⟨commit_blobNames_invariant.1 1 [⟨"a.py", "x", "a.py"⟩] emptyStore respOkA
      c1run1.1 c1s1 (by decide),
   commit_blobNames_invariant.2.1 800 1 "a.py" FileCheck.notFound storeW (fun _ => none)
      c1run2.1 c1s2 (by decide),
   commit_blobNames_invariant.2.2 "b.py" storeW "File not found"
      c1run3.1 c1s3 (by decide)⟩

def c3h1 : String := calculateBlobName "f.py#chunk1of2" "a\n"
def c3h2 : String := calculateBlobName "f.py#chunk2of2" "b"
def c3resp : Nat → Option (List String) := fun i => if i = 0 then some [c3h1] else none
def c3run : IndexResult × Option IndexStore :=
  indexProject 1 (splitFileContent 1 "f.py" "a\nb") emptyStore c3resp
def c3store : IndexStore := (c3run.2).getD emptyStore

/-- C3 (counterexample): `f.py` splits into two blobs uploaded in two
batches; the first succeeds and the second fails, yet the committed
`file_map` keeps `f.py` with the truncated single-digest list `[c3h1]`
instead of dropping the file. -/
theorem indexProject_truncated_entry :
    alGet (buildFileMap (splitFileContent 1 "f.py" "a\nb")) "f.py" = some [c3h1, c3h2] ∧
    (indexProject 1 (splitFileContent 1 "f.py" "a\nb") emptyStore c3resp).2 =
      some ⟨1, [c3h1], [("f.py", [c3h1])]⟩ := by
  refine ⟨by decide, by decide⟩

theorem indexProject_partial_failure_witness :
    emptyStore.blob_names.contains c3h1 = true ∨
      c3h1 ∈ (runBatches (newOf emptyStore (splitFileContent 1 "f.py" "a\nb")) 1 c3resp).1 :=
  (indexProject_partial_failure 1 (splitFileContent 1 "f.py" "a\nb") emptyStore c3resp
     c3run.1 c3store (by decide)).1 c3h1 (by decide)

def c6blobs : List Blob := [⟨"a.py", "x", "a.py"⟩, ⟨"b.py", "y", "b.py"⟩]
def c6store0 : IndexStore := ⟨1, [hBy], [("b.py", [hBy])]⟩
def c6resp : Nat → Option (List String) := fun i => if i = 0 then some [hAx] else none
def c6s1 : IndexStore := ((indexProject 10 c6blobs c6store0 c6resp).2).getD emptyStore
def c6s2 : IndexStore := ((indexProject 10 c6blobs c6s1 c6resp).2).getD emptyStore

/-- C6 (counterexample): with a non-empty prior store holding `b.py`'s
digest, the first run commits `blob_names = [hBy, hAx]` (existing digests
first, then uploads) while the unchanged second run commits
`[hAx, hBy]` (collection order): the committed documents differ
byte-for-byte even though no file changed between the runs. -/
theorem indexProject_not_bytewise_idempotent :
    (indexProject 10 c6blobs c6store0 c6resp).2 = some c6s1 ∧
    (indexProject 10 c6blobs c6s1 c6resp).2 = some c6s2 ∧
    c6s1.blob_names = [hBy, hAx] ∧
    c6s2.blob_names = [hAx, hBy] ∧
    c6s2 ≠ c6s1 := by
  refine ⟨by decide, by decide, by decide, by decide, by decide⟩

theorem indexProject_idempotent_witness :
    (indexProject 1 [⟨"a.py", "x", "a.py"⟩] emptyStore respOkA).2 =
        some ⟨1, allBlobHashes [⟨"a.py", "x", "a.py"⟩],
              buildFileMap [⟨"a.py", "x", "a.py"⟩]⟩ ∧
    newOf ⟨1, allBlobHashes [⟨"a.py", "x", "a.py"⟩],
           buildFileMap [⟨"a.py", "x", "a.py"⟩]⟩ [⟨"a.py", "x", "a.py"⟩] = [] :=
  have h := indexProject_idempotent 1 [⟨"a.py", "x", "a.py"⟩] respOkA (fun _ => none)
    (by omega) (by decide) (by decide)
  ⟨h.1, h.2.2.1⟩

def c10store : IndexStore := ⟨1, ["oldhash"], [("old.py", ["oldhash"])]⟩
def c10run : IndexResult × Option IndexStore :=
  indexProject 1 [⟨"a.py", "x", "a.py"⟩] c10store respOkA
def c10s : IndexStore := (c10run.2).getD emptyStore

theorem indexProject_fresh_commit_witness :
    hAx ∈ candidateHashes [⟨"a.py", "x", "a.py"⟩] ∧
    ((∀ b ∈ [(⟨"a.py", "x", "a.py"⟩ : Blob)], b.sourcePath ≠ "old.py") →
      ¬ ∃ e ∈ c10s.file_map, e.1 = "old.py") :=
  ⟨(indexProject_fresh_commit 1 [⟨"a.py", "x", "a.py"⟩] c10store respOkA
      c10run.1 c10s (by decide)).2.2 hAx (by decide),
   (indexProject_fresh_commit 1 [⟨"a.py", "x", "a.py"⟩] c10store respOkA
      c10run.1 c10s (by decide)).2.1 "old.py"⟩

end AceSidebar
